import Mathlib

/-!
# Verification of the chess / checkers rule engine

A shallow embedding of the two Python modules of the repository
(`chess.py` and `шашка.py`) together with proofs about the embedded
operations.

Conventions of the embedding:

* A board square is an `Int × Int` pair `(x, y)` where `x` is the row
  index (0 at the top) and `y` the column index, exactly as the Python
  code indexes `grid[x][y]`.
* The 8×8 grid is a total function `Fin 8 → Fin 8 → Option Piece`.
  `get_piece` reproduces Python's list-indexing semantics: indices in
  `[-8, 8)` are accepted, negative ones wrapping around (Python's
  `l[-1]` is `l[7]`); indices outside `[-8, 8)` raise `IndexError` in
  Python and are mapped to `none` here (no theorem below depends on an
  access outside `[-8, 8)`).
* The mutual recursion between `King.get_valid_moves` and
  `Board.is_square_under_attack` is modelled with an explicit fuel
  parameter: `get_valid_moves fuel` returns `none` exactly when the
  Python call tree would have to nest more than `fuel` recursive
  `get_valid_moves` frames below the current one.  A result of
  `some ms` at any fuel is the value Python computes; `none` at every
  fuel means the Python code does not terminate.
-/

namespace Chess

/-- Piece colors, `'white'` / `'black'` in the source. -/
inductive Color where
  | white
  | black
deriving DecidableEq, Repr, Fintype

/-- The color of the opponent (`'black' if color == 'white' else 'white'`). -/
def opposite : Color → Color
  | Color.white => Color.black
  | Color.black => Color.white

/-- The six chess piece kinds (the Python subclasses of `ChessPiece`). -/
inductive Kind where
  | pawn
  | rook
  | knight
  | bishop
  | queen
  | king
deriving DecidableEq, Repr, Fintype

/-- A chess piece: kind, color and the `has_moved` flag. -/
structure Piece where
  kind : Kind
  color : Color
  hasMoved : Bool
deriving DecidableEq, Repr, Fintype

/-- The 8×8 grid, one optional piece per cell (`Board.grid`). -/
abbrev Board := Fin 8 → Fin 8 → Option Piece

/-- A position `(x, y)` as used throughout the Python code. -/
abbrev Pos := Int × Int

/-- Translation of an Int index in `[-8, 8)` to the list cell Python
would access: nonnegative indices are used as-is and negative ones wrap
(`l[-1]` is `l[7]`).  `i % 8` realises exactly that on `[-8, 8)`. -/
def toIdx (i : Int) : Fin 8 :=
  ⟨(i % 8).toNat % 8, Nat.mod_lt _ (by decide)⟩

/-- `0 <= x < 8 and 0 <= y < 8`: the bounds test the Python code uses. -/
def inBounds (q : Pos) : Prop :=
  0 ≤ q.1 ∧ q.1 < 8 ∧ 0 ≤ q.2 ∧ q.2 < 8

instance : DecidablePred inBounds := fun q => by
  unfold inBounds; infer_instance

/-- Reading `grid[x][y]` with Python list-index semantics (wrap-around
for indices in `[-8, 0)`, `none` standing for the `IndexError` outside
`[-8, 8)`).  Generic in the cell content so the checkers grid can reuse
it. -/
def get_piece {α : Type} (b : Fin 8 → Fin 8 → Option α) (q : Pos) : Option α :=
  if -8 ≤ q.1 ∧ q.1 < 8 ∧ -8 ≤ q.2 ∧ q.2 < 8 then
    b (toIdx q.1) (toIdx q.2)
  else
    none

/-- Writing `grid[x][y] = v` (only reached with indices in `[-8, 8)` in
the modelled code paths). -/
def set_cell {α : Type} (b : Fin 8 → Fin 8 → Option α) (q : Pos) (v : Option α) :
    Fin 8 → Fin 8 → Option α :=
  if -8 ≤ q.1 ∧ q.1 < 8 ∧ -8 ≤ q.2 ∧ q.2 < 8 then
    Function.update b (toIdx q.1) (Function.update (b (toIdx q.1)) (toIdx q.2) v)
  else
    b

/-- All 64 squares in the row-major order the Python `for i … for j …`
loops visit them. -/
def allSquares : List Pos :=
  (List.range 8).flatMap fun i => (List.range 8).map fun j => ((i : Int), (j : Int))

/-- Number of occupied squares of a board. -/
def population {α : Type} (b : Fin 8 → Fin 8 → Option α) : Nat :=
  ∑ i : Fin 8, ∑ j : Fin 8, (if (b i j).isSome then 1 else 0)

/-! ## Candidate move generation (`get_valid_moves` of each piece class) -/

/-- Walk one sliding ray.  The Python loop `for step in range(1, 8)`
skips out-of-bounds steps (no `break` in the `else` branch) and breaks
at the first in-bounds occupied square, adding it when the occupant has
the other color. -/
def ray_walk (b : Board) (c : Color) (x y dx dy : Int) : List Int → List Pos
  | [] => []
  | s :: rest =>
    let q : Pos := (x + dx * s, y + dy * s)
    if inBounds q then
      match get_piece b q with
      | none => q :: ray_walk b c x y dx dy rest
      | some p => if p.color ≠ c then [q] else []
    else
      ray_walk b c x y dx dy rest

/-- The steps `range(1, 8)`. -/
def raySteps : List Int := [1, 2, 3, 4, 5, 6, 7]

/-- `Rook.get_valid_moves`: the four orthogonal rays, in source order. -/
def rook_moves (b : Board) (c : Color) (x y : Int) : List Pos :=
  ([(-1, 0), (1, 0), (0, -1), (0, 1)] : List (Int × Int)).flatMap fun d =>
    ray_walk b c x y d.1 d.2 raySteps

/-- `Bishop.get_valid_moves`: the four diagonal rays, in source order. -/
def bishop_moves (b : Board) (c : Color) (x y : Int) : List Pos :=
  ([(-1, -1), (-1, 1), (1, -1), (1, 1)] : List (Int × Int)).flatMap fun d =>
    ray_walk b c x y d.1 d.2 raySteps

/-- `Queen.get_valid_moves`: rook moves followed by bishop moves. -/
def queen_moves (b : Board) (c : Color) (x y : Int) : List Pos :=
  rook_moves b c x y ++ bishop_moves b c x y

/-- A fixed-offset target is kept when it is on the board and not
occupied by a same-color piece (`if not piece or piece.color != self.color`). -/
def offset_targets (b : Board) (c : Color) (x y : Int) (offs : List (Int × Int)) :
    List Pos :=
  offs.filterMap fun d =>
    let q : Pos := (x + d.1, y + d.2)
    if inBounds q then
      match get_piece b q with
      | none => some q
      | some p => if p.color ≠ c then some q else none
    else
      none

/-- `Knight.get_valid_moves`: the eight jumps, in source order. -/
def knight_moves (b : Board) (c : Color) (x y : Int) : List Pos :=
  offset_targets b c x y
    [(-2, -1), (-2, 1), (-1, -2), (-1, 2), (1, -2), (1, 2), (2, -1), (2, 1)]

/-- The eight king directions, in source order. -/
def kingDirections : List (Int × Int) :=
  [(-1, -1), (-1, 0), (-1, 1), (0, -1), (0, 1), (1, -1), (1, 0), (1, 1)]

/-- The one-square king moves (first loop of `King.get_valid_moves`). -/
def king_basic (b : Board) (c : Color) (x y : Int) : List Pos :=
  offset_targets b c x y kingDirections

/-- `direction = -1 if self.color == 'white' else 1` -/
def pawnDirection : Color → Int
  | Color.white => -1
  | Color.black => 1

/-- `start_row = 6 if self.color == 'white' else 1` -/
def pawnStartRow : Color → Int
  | Color.white => 6
  | Color.black => 1

/-- The last move as tracked by `Game.last_move`: `(from_pos, to_pos)`. -/
abbrev LastMove := Option (Pos × Pos)

/-- `Pawn.get_valid_moves`: forward step, double step from the start
row, the two diagonal captures, then the en-passant target, appended in
source order. -/
def pawn_moves (b : Board) (c : Color) (x y : Int) (lm : LastMove) : List Pos :=
  let dir := pawnDirection c
  let nx := x + dir
  let forward : List Pos :=
    if 0 ≤ nx ∧ nx < 8 ∧ get_piece b (nx, y) = none then
      (nx, y) ::
        (if x = pawnStartRow c ∧ get_piece b (nx + dir, y) = none then
          [(nx + dir, y)] else [])
    else []
  let captures : List Pos :=
    ([-1, 1] : List Int).filterMap fun dy =>
      if 0 ≤ y + dy ∧ y + dy < 8 then
        match get_piece b (nx, y + dy) with
        | some p => if p.color ≠ c then some (nx, y + dy) else none
        | none => none
      else none
  let enPassant : List Pos :=
    match lm with
    | none => []
    | some (lf, lt) =>
      match get_piece b lt with
      | some p =>
        if p.kind = Kind.pawn ∧ (lf.1 - lt.1).natAbs = 2 ∧ lt.1 = x ∧
            (lt.2 = y + 1 ∨ lt.2 = y - 1) then
          [(nx, lt.2)]
        else []
      | none => []
  forward ++ captures ++ enPassant

/-- Python's `range(lo, hi)` over integers. -/
def intRange (lo hi : Int) : List Int :=
  (List.range (hi - lo).toNat).map fun (k : Nat) => lo + (k : Int)

/-- `board.get_piece(q)` holds a `Rook` that has not moved (the
castling rook test; the source never checks the rook's color). -/
def rook_unmoved_at (b : Board) (q : Pos) : Bool :=
  match get_piece b q with
  | some r => decide (r.kind = Kind.rook) && decide (r.hasMoved = false)
  | none => false

/-- Kingside castling precondition apart from the attack tests: rook on
column 7 unmoved and `all(board.get_piece((x, j)) is None for j in
range(y+1, 7))`. -/
def kingside_ready (b : Board) (x y : Int) : Bool :=
  rook_unmoved_at b (x, 7) &&
    (intRange (y + 1) 7).all fun j => decide (get_piece b (x, j) = none)

/-- Queenside: rook on column 0, squares `range(1, y)` all empty. -/
def queenside_ready (b : Board) (x y : Int) : Bool :=
  rook_unmoved_at b (x, 0) &&
    (intRange 1 y).all fun j => decide (get_piece b (x, j) = none)

/-- One castling side: when the rook/emptiness test passes Python
evaluates `is_square_under_attack` on the transit square and — only if
that is safe — on the destination.  `att` returns `none` when the
attack query itself does not terminate, and that propagates. -/
def castle_side (att : Pos → Option Bool) (transit dest : Pos) (ready : Bool) :
    Option (List Pos) :=
  if ready then
    match att transit with
    | none => none
    | some true => some []
    | some false =>
      match att dest with
      | none => none
      | some true => some []
      | some false => some [dest]
  else some []

/-- `King.get_valid_moves` given an attack oracle: the eight basic
moves, then — for an unmoved king — the kingside and queenside castling
candidates. -/
def king_moves_given (att : Pos → Option Bool) (b : Board) (p : Piece)
    (x y : Int) : Option (List Pos) :=
  let basic := king_basic b p.color x y
  if p.hasMoved then some basic else
  match castle_side att (x, y + 1) (x, y + 2) (kingside_ready b x y) with
  | none => none
  | some ks =>
    match castle_side att (x, y - 1) (x, y - 2) (queenside_ready b x y) with
    | none => none
    | some qs => some (basic ++ ks ++ qs)

/-- The scan of `is_square_under_attack` / `is_in_check`: visit the
squares in row-major order, and for each piece of the attacking color
ask `eval` for its candidate moves (Python passes no `last_move` here);
return `some true` at the first piece whose candidates contain `target`. -/
def attack_scan (eval : Piece → Pos → Option (List Pos)) (b : Board)
    (target : Pos) (attacker : Color) : List Pos → Option Bool
  | [] => some false
  | q :: rest =>
    match get_piece b q with
    | some p =>
      if p.color = attacker then
        match eval p q with
        | none => none
        | some ms =>
          if target ∈ ms then some true
          else attack_scan eval b target attacker rest
      else attack_scan eval b target attacker rest
    | none => attack_scan eval b target attacker rest

/-- `get_valid_moves`, dispatching on the piece kind.  The fuel bounds
how many further `get_valid_moves` frames the castling checks of kings
may open; `none` means the bound was exceeded (see the module header). -/
def get_valid_moves : Nat → Board → Piece → Pos → LastMove → Option (List Pos)
  | 0, b, p, pos, lm =>
    match p.kind with
    | Kind.pawn => some (pawn_moves b p.color pos.1 pos.2 lm)
    | Kind.rook => some (rook_moves b p.color pos.1 pos.2)
    | Kind.knight => some (knight_moves b p.color pos.1 pos.2)
    | Kind.bishop => some (bishop_moves b p.color pos.1 pos.2)
    | Kind.queen => some (queen_moves b p.color pos.1 pos.2)
    | Kind.king => king_moves_given (fun _ => none) b p pos.1 pos.2
  | (m + 1), b, p, pos, lm =>
    match p.kind with
    | Kind.pawn => some (pawn_moves b p.color pos.1 pos.2 lm)
    | Kind.rook => some (rook_moves b p.color pos.1 pos.2)
    | Kind.knight => some (knight_moves b p.color pos.1 pos.2)
    | Kind.bishop => some (bishop_moves b p.color pos.1 pos.2)
    | Kind.queen => some (queen_moves b p.color pos.1 pos.2)
    | Kind.king =>
      king_moves_given
        (fun q =>
          attack_scan (fun p' q' => get_valid_moves m b p' q' none) b q
            (opposite p.color) allSquares)
        b p pos.1 pos.2

/-- `Board.is_square_under_attack pos color` with all piece evaluations
run at the given fuel. -/
def is_square_under_attack (m : Nat) (b : Board) (q : Pos) (c : Color) :
    Option Bool :=
  attack_scan (fun p' q' => get_valid_moves m b p' q' none) b q (opposite c)
    allSquares

/-- `Board.find_king_position`: first king of the color in row-major
scan order. -/
def find_king_position (b : Board) (c : Color) : Option Pos :=
  allSquares.find? fun q =>
    match get_piece b q with
    | some p => decide (p.kind = Kind.king) && decide (p.color = c)
    | none => false

/-- `Board.is_in_check`: `False` when there is no king, otherwise scan
all opposing pieces for one attacking the king square. -/
def is_in_check (m : Nat) (b : Board) (c : Color) : Option Bool :=
  match find_king_position b c with
  | none => some false
  | some kp =>
    attack_scan (fun p' q' => get_valid_moves m b p' q' none) b kp (opposite c)
      allSquares

/-! ## Board mutation and the game session -/

/-- `Board.move_piece`.  When the moved piece is a king displacing two
columns the rook is relocated first (`grid[rook_to] = rook;
grid[rook_from] = None`); then the piece itself is moved and its
`has_moved` flag set.  The Python method also returns `False` when the
source square is empty; the boolean is `(get_piece b from).isSome`. -/
def move_piece (b : Board) (fromPos toPos : Pos) : Board :=
  match get_piece b fromPos with
  | none => b
  | some p =>
    let b1 :=
      if p.kind = Kind.king ∧ (fromPos.2 - toPos.2).natAbs = 2 then
        let direction : Int := if toPos.2 > fromPos.2 then 1 else -1
        let rookFrom : Pos := (fromPos.1, if direction = 1 then 7 else 0)
        let rookTo : Pos := (fromPos.1, toPos.2 - direction)
        set_cell (set_cell b rookTo (get_piece b rookFrom)) rookFrom none
      else b
    set_cell (set_cell b1 toPos (some { p with hasMoved := true })) fromPos none

/-- `Board.copy`: a deep, independent copy.  On board values a copy is
observationally the board itself; the aliasing content of `copy` is
treated in the heap model below. -/
def copy (b : Board) : Board := b

/-- The promotion choices the game accepts (`Q`, `R`, `B`, `N`). -/
inductive PromoChoice where
  | q
  | r
  | b
  | n
deriving DecidableEq, Repr

/-- The piece kind a promotion choice produces. -/
def PromoChoice.kind : PromoChoice → Kind
  | PromoChoice.q => Kind.queen
  | PromoChoice.r => Kind.rook
  | PromoChoice.b => Kind.bishop
  | PromoChoice.n => Kind.knight

/-- The session state of `Game`: board, player to move, move counter
and the single-ply `last_move` history. -/
structure GState where
  board : Board
  current : Color
  moveCount : Nat
  lastMove : LastMove
deriving DecidableEq

/-- `Game.filter_self_checks`: simulate each candidate on a copy of the
board via `move_piece` (no en-passant removal, no promotion) and keep it
iff the mover is not left in check.  `none` propagates nontermination of
the check queries. -/
def filter_self_checks (m : Nat) (b : Board) (cur : Color) (fromPos : Pos) :
    List Pos → Option (List Pos)
  | [] => some []
  | mv :: rest =>
    let temp := move_piece (copy b) fromPos mv
    match is_in_check m temp cur with
    | none => none
    | some true => filter_self_checks m b cur fromPos rest
    | some false =>
      match filter_self_checks m b cur fromPos rest with
      | none => none
      | some kept => some (mv :: kept)

/-- `Game.execute_move`: en-passant removal of the bypassed pawn, the
raw relocation, recording `last_move`, and pawn promotion on the last
rank (the interactive choice is the `choice` parameter; Python
re-prompts until one of the four kinds is given). -/
def execute_move (s : GState) (fromPos toPos : Pos) (p : Piece)
    (choice : PromoChoice) : GState :=
  let b0 :=
    if p.kind = Kind.pawn ∧ toPos.2 ≠ fromPos.2 ∧ get_piece s.board toPos = none
    then set_cell s.board (fromPos.1, toPos.2) none
    else s.board
  let b1 := move_piece b0 fromPos toPos
  let b2 :=
    if p.kind = Kind.pawn ∧ (toPos.1 = 0 ∨ toPos.1 = 7) then
      set_cell b1 toPos (some ⟨choice.kind, s.current, false⟩)
    else b1
  { s with board := b2, lastMove := some (fromPos, toPos) }

/-- One iteration of the `Game.play` loop that commits a move: the
selected square must hold a piece of the active color with a nonempty
filtered move list, the destination must be in that list; then
`execute_move` runs, the player flips and the counter increments.
`none` covers every rejected request (and nonterminating check
queries). -/
def session_move (m : Nat) (s : GState) (fromPos toPos : Pos)
    (choice : PromoChoice) : Option GState :=
  match get_piece s.board fromPos with
  | none => none
  | some p =>
    if p.color = s.current then
      match get_valid_moves m s.board p fromPos s.lastMove with
      | none => none
      | some candidates =>
        match filter_self_checks m s.board s.current fromPos candidates with
        | none => none
        | some valid =>
          if valid ≠ [] ∧ toPos ∈ valid then
            let s' := execute_move s fromPos toPos p choice
            some { s' with current := opposite s.current,
                           moveCount := s.moveCount + 1 }
          else none
    else none

/-- The back-rank kind at column `j` (`Rook, Knight, Bishop, Queen,
King, Bishop, Knight, Rook`). -/
def backRankKind (j : Fin 8) : Kind :=
  match j.val with
  | 0 => Kind.rook
  | 1 => Kind.knight
  | 2 => Kind.bishop
  | 3 => Kind.queen
  | 4 => Kind.king
  | 5 => Kind.bishop
  | 6 => Kind.knight
  | _ => Kind.rook

/-- `Board.setup_board`: the standard initial position. -/
def initial_board : Board := fun i j =>
  if i.val = 1 then some ⟨Kind.pawn, Color.black, false⟩
  else if i.val = 6 then some ⟨Kind.pawn, Color.white, false⟩
  else if i.val = 0 then some ⟨backRankKind j, Color.black, false⟩
  else if i.val = 7 then some ⟨backRankKind j, Color.white, false⟩
  else none

/-- A fresh `Game`. -/
def initial_state : GState :=
  { board := initial_board, current := Color.white, moveCount := 0,
    lastMove := none }

/-- Run a list of requested moves through `session_move` (promotion
choice fixed to queen; none of the runs below promotes). -/
def run_session (m : Nat) : GState → List (Pos × Pos) → Option GState
  | s, [] => some s
  | s, (f, t) :: rest =>
    match session_move m s f t PromoChoice.q with
    | none => none
    | some s' => run_session m s' rest

/-- A board from a finite placement list (test fixture). -/
def board_of (entries : List ((Nat × Nat) × Piece)) : Board := fun i j =>
  (entries.find? fun e => decide (e.1.1 = i.val) && decide (e.1.2 = j.val)).map
    (·.2)

/-- A position with both kings and both kingside rooks unmoved and the
kingside files between king and rook empty — reachable from the initial
position, e.g. after `1. Nf3 Nf6 2. e3 e6 3. Be2 Be7`, by moving the
two bishops and knights out of the way. -/
def deadlockBoard : Board := board_of
  [((0, 4), ⟨Kind.king, Color.black, false⟩),
   ((0, 7), ⟨Kind.rook, Color.black, false⟩),
   ((7, 4), ⟨Kind.king, Color.white, false⟩),
   ((7, 7), ⟨Kind.rook, Color.white, false⟩)]

/-- Claim C2 fixture: white king `e1` and rook `h1` unmoved, `f1`/`g1`
empty, a black knight on `d3` attacking `e1`, the black king far away
and not castle-ready. -/
def checkCastleBoard : Board := board_of
  [((7, 4), ⟨Kind.king, Color.white, false⟩),
   ((7, 7), ⟨Kind.rook, Color.white, false⟩),
   ((5, 3), ⟨Kind.knight, Color.black, false⟩),
   ((0, 4), ⟨Kind.king, Color.black, false⟩)]

/-- Claim C4 fixture: a white pawn parked on row 0 and a black rook on
row 7; Python's `grid[-1][1]` wraps around to `grid[7][1]`. -/
def edgePawnBoard : Board := board_of
  [((0, 0), ⟨Kind.pawn, Color.white, false⟩),
   ((7, 1), ⟨Kind.rook, Color.black, false⟩)]

/-- Claim C3 fixture: the game
`1. e4 a5 2. e5 Ra6 3. Ke2 Rc6 4. Kf3 Rc5 5. Kg4 h6 6. Kh5 d5 7. exd6`,
in grid coordinates.  The final move is the en-passant capture of the
`d5` pawn by the `e5` pawn; removing `d5` opens the fifth rank from the
black rook on `c5` to the white king on `h5`. -/
def enPassantTrap : List (Pos × Pos) :=
  [((6, 4), (4, 4)), ((1, 0), (3, 0)), ((4, 4), (3, 4)), ((0, 0), (2, 0)),
   ((7, 4), (6, 4)), ((2, 0), (2, 2)), ((6, 4), (5, 5)), ((2, 2), (3, 2)),
   ((5, 5), (4, 6)), ((1, 7), (2, 7)), ((4, 6), (3, 7)), ((1, 3), (3, 3)),
   ((3, 4), (2, 3))]

/-- Python's `str.strip()` followed by `str.lower()` on the character
list of the input. -/
def strip_lower (l : List Char) : List Char :=
  (((l.dropWhile Char.isWhitespace).reverse.dropWhile
    Char.isWhitespace).reverse).map Char.toLower

/-- One read of `Game.get_position` (the surrounding `while` only
repeats the prompt): two characters after `strip().lower()`, a letter
then a digit, mapped to `(8 - int(row), ord(col) - ord('a'))` and
accepted only within the board. -/
def get_position_attempt (s : String) : Option Pos :=
  match strip_lower s.data with
  | [colC, rowC] =>
    if colC.isAlpha ∧ rowC.isDigit then
      let x : Int := 8 - Int.ofNat (rowC.toNat - Char.toNat '0')
      let y : Int := Int.ofNat colC.toNat - Int.ofNat (Char.toNat 'a')
      if 0 ≤ x ∧ x < 8 ∧ 0 ≤ y ∧ y < 8 then some (x, y) else none
    else none
  | _ => none

end Chess

namespace Checkers

open Chess

/-- A checkers piece: color and the king flag
(`CheckersPiece.color` / `is_king`). -/
structure CheckerPiece where
  color : Color
  isKing : Bool
deriving DecidableEq, Repr, Fintype

/-- The checkers grid (`CheckersBoard.grid`). -/
abbrev CheckersBoard := Fin 8 → Fin 8 → Option CheckerPiece

/-- The `{'moves': …, 'captures': …}` dictionary both checker classes
return. -/
structure MoveSets where
  moves : List Pos
  captures : List Pos
deriving DecidableEq, Repr

/-- `CheckersBoard.is_within_board`. -/
def is_within_board (x y : Int) : Prop := 0 ≤ x ∧ x < 8 ∧ 0 ≤ y ∧ y < 8

instance (x y : Int) : Decidable (is_within_board x y) := by
  unfold is_within_board
  infer_instance

/-- The forward directions of a man: toward row 0 for white, toward
row 7 for black. -/
def regular_directions (c : Color) : List (Int × Int) :=
  if c = Color.white then [(-1, -1), (-1, 1)] else [(1, -1), (1, 1)]

/-- `RegularChecker.get_valid_moves`: a one-square diagonal step onto an
empty square, or a jump over an adjacent opponent onto the empty square
beyond, in the two forward directions only. -/
def regular_valid_moves (b : CheckersBoard) (p : CheckerPiece) (x y : Int) :
    MoveSets :=
  { moves :=
      (regular_directions p.color).filterMap fun d =>
        let q : Pos := (x + d.1, y + d.2)
        if is_within_board q.1 q.2 then
          match get_piece b q with
          | none => some q
          | some _ => none
        else none,
    captures :=
      (regular_directions p.color).filterMap fun d =>
        let q : Pos := (x + d.1, y + d.2)
        if is_within_board q.1 q.2 then
          match get_piece b q with
          | none => none
          | some t =>
            if t.color ≠ p.color then
              let q2 : Pos := (x + 2 * d.1, y + 2 * d.2)
              if is_within_board q2.1 q2.2 ∧ get_piece b q2 = none then
                some q2
              else none
            else none
        else none }

/-- The extra loop of `KingChecker.get_valid_moves`: one empty step in
each of the four diagonal directions (appended to the man's `moves`
list; the `captures` list is not extended). -/
def king_extra_moves (b : CheckersBoard) (x y : Int) : List Pos :=
  ([(-1, -1), (-1, 1), (1, -1), (1, 1)] : List (Int × Int)).filterMap fun d =>
    let q : Pos := (x + d.1, y + d.2)
    if is_within_board q.1 q.2 ∧ get_piece b q = none then some q else none

/-- `KingChecker.get_valid_moves`: the man's sets plus the extra
one-square steps. -/
def king_valid_moves (b : CheckersBoard) (p : CheckerPiece) (x y : Int) :
    MoveSets :=
  let base := regular_valid_moves b p x y
  { base with moves := base.moves ++ king_extra_moves b x y }

/-- Candidate sets of the piece at a square, dispatching on the king
flag. -/
def get_valid_moves (b : CheckersBoard) (p : CheckerPiece) (pos : Pos) :
    MoveSets :=
  if p.isKing then king_valid_moves b p pos.1 pos.2
  else regular_valid_moves b p pos.1 pos.2

/-- `CheckersBoard.check_promotion`: a man arriving on the far row is
replaced by a king of its color. -/
def check_promotion (b : CheckersBoard) (pos : Pos) : CheckersBoard :=
  match get_piece b pos with
  | none => b
  | some p =>
    if p.isKing then b
    else if (p.color = Color.white ∧ pos.1 = 0) ∨
        (p.color = Color.black ∧ pos.1 = 7) then
      set_cell b pos (some ⟨p.color, true⟩)
    else b

/-- `CheckersBoard.move_piece`: validate the request against the piece's
own move sets and perform it; `(start + end) // 2` is the jumped
square (`Int.fdiv` is Python's floor division). -/
def move_piece (b : CheckersBoard) (start finish : Pos) :
    Bool × CheckersBoard :=
  match get_piece b start with
  | none => (false, b)
  | some p =>
    let vm := get_valid_moves b p start
    if finish ∈ vm.moves then
      let b1 := set_cell (set_cell b finish (some p)) start none
      (true, check_promotion b1 finish)
    else if finish ∈ vm.captures then
      let mid : Pos :=
        (Int.fdiv (start.1 + finish.1) 2, Int.fdiv (start.2 + finish.2) 2)
      let b1 :=
        set_cell (set_cell (set_cell b finish (some p)) start none) mid none
      (true, check_promotion b1 finish)
    else (false, b)

/-- `CheckersBoard.init_board`: men on the dark squares of the first
three and last three rows. -/
def initial_checkers_board : CheckersBoard := fun i j =>
  if (i.val + j.val) % 2 = 1 then
    if i.val < 3 then some ⟨Color.black, false⟩
    else if i.val > 4 then some ⟨Color.white, false⟩
    else none
  else none

/-- Python `int(...)` on an already-split token: optional sign followed
by at least one digit. -/
def digits_value (ds : List Char) : Option Nat :=
  if ds ≠ [] ∧ ds.all Char.isDigit then
    some (ds.foldl (fun acc c => 10 * acc + (c.toNat - Char.toNat '0')) 0)
  else none

/-- Integer parsing of one token. -/
def parse_int_token (t : List Char) : Option Int :=
  match t with
  | [] => none
  | '+' :: ds => (digits_value ds).map Int.ofNat
  | '-' :: ds => (digits_value ds).map fun n => -(Int.ofNat n)
  | ds => (digits_value ds).map Int.ofNat

/-- Python's argument-less `str.split()`: split on whitespace runs,
dropping empty tokens.  `acc` holds the characters of the current token
in reverse. -/
def split_tokens (acc : List Char) : List Char → List (List Char)
  | [] => if acc = [] then [] else [acc.reverse]
  | c :: rest =>
    if c.isWhitespace then
      if acc = [] then split_tokens [] rest
      else acc.reverse :: split_tokens [] rest
    else split_tokens (c :: acc) rest

/-- `CheckersGame.parse_input`: `x, y = map(int, input_str.split())`,
`None` on any failure (wrong token count or unparsable token).  No
range check is performed. -/
def parse_input (s : String) : Option Pos :=
  match split_tokens [] s.data with
  | [a, b] =>
    match parse_int_token a, parse_int_token b with
    | some x, some y => some (x, y)
    | _, _ => none
  | _ => none

/-- A checkers board from a finite placement list (test fixture). -/
def cboard_of (entries : List ((Nat × Nat) × CheckerPiece)) : CheckersBoard :=
  fun i j =>
    (entries.find? fun e =>
      decide (e.1.1 = i.val) && decide (e.1.2 = j.val)).map (·.2)

/-- The §8 capture scenario: a white man at `(5,0)`, a black man at
`(4,1)`, the landing square `(3,2)` empty. -/
def jumpScenario : CheckersBoard :=
  cboard_of [((5, 0), ⟨Color.white, false⟩), ((4, 1), ⟨Color.black, false⟩)]

end Checkers

namespace HeapModel

open Chess

/-!
A second, heap-explicit rendering of `Board` for the aliasing claim:
Python piece objects live on a heap and the grid stores references, so
`copy.deepcopy` and in-place mutation (`piece.has_moved = True`,
grid writes) can be told apart from sharing.  `Ref`s are indices into a
heap list; `Board.copy` allocates fresh indices at the end of the heap.
-/

abbrev Ref := Nat

abbrev Heap := List Piece

/-- A grid of piece references. -/
abbrev RefGrid := Fin 8 → Fin 8 → Option Ref

/-- The board a heap/grid pair denotes. -/
def toBoard (h : Heap) (g : RefGrid) : Board := fun i j => (g i j).bind h.get?

/-- All cells in the row-major order `Board.copy` visits them. -/
def allCells : List (Fin 8 × Fin 8) :=
  (List.finRange 8).flatMap fun i => (List.finRange 8).map fun j => (i, j)

/-- The copy loop: for each occupied source cell, append a deep copy of
the referenced piece to the heap and point the new grid at it.  Cells
whose reference dangles are skipped (unreachable from Python, where the
grid holds the objects themselves). -/
def copy_cells (src : RefGrid) :
    Heap → RefGrid → List (Fin 8 × Fin 8) → Heap × RefGrid
  | h, acc, [] => (h, acc)
  | h, acc, (i, j) :: rest =>
    match src i j with
    | none => copy_cells src h acc rest
    | some r =>
      match h.get? r with
      | none => copy_cells src h acc rest
      | some p =>
        copy_cells src (h ++ [p])
          (fun i' j' => if i' = i ∧ j' = j then some h.length else acc i' j')
          rest

/-- `Board.copy` in the heap model: fresh empty grid, then the copy
loop. -/
def board_copy (h : Heap) (g : RefGrid) : Heap × RefGrid :=
  copy_cells g h (fun _ _ => none) allCells

/-- `Board.move_piece` in the heap model: the grid is rewired exactly as
in the value model, and `piece.has_moved = True` mutates the heap cell
of the moved piece. -/
def move_piece_heap (h : Heap) (g : RefGrid) (fromPos toPos : Pos) :
    Heap × RefGrid :=
  match get_piece g fromPos with
  | none => (h, g)
  | some r =>
    match h.get? r with
    | none => (h, g)
    | some p =>
      let g1 :=
        if p.kind = Kind.king ∧ (fromPos.2 - toPos.2).natAbs = 2 then
          let direction : Int := if toPos.2 > fromPos.2 then 1 else -1
          let rookFrom : Pos := (fromPos.1, if direction = 1 then 7 else 0)
          let rookTo : Pos := (fromPos.1, toPos.2 - direction)
          set_cell (set_cell g rookTo (get_piece g rookFrom)) rookFrom none
        else g
      let g2 := set_cell (set_cell g1 toPos (some r)) fromPos none
      (h.set r { p with hasMoved := true }, g2)

/-- One simulation of the loop body of `filter_self_checks`:
`temp_board = self.board.copy(); temp_board.move_piece(from, move)`.
The heap grows by the copied pieces and the copy's moved piece is
mutated. -/
def sim_step (g : RefGrid) (fromPos mv : Pos) (h : Heap) : Heap × RefGrid :=
  move_piece_heap (board_copy h g).1 (board_copy h g).2 fromPos mv

/-- `Game.filter_self_checks` in the heap model: per candidate, copy the
board (appending to the shared heap), simulate via `move_piece_heap`
(mutating only the copy's cells), and query `is_in_check` on the
denoted board.  Returns the final heap alongside the kept moves. -/
def filter_self_checks_heap (m : Nat) (g : RefGrid) (cur : Color)
    (fromPos : Pos) : Heap → List Pos → Option (Heap × List Pos)
  | h, [] => some (h, [])
  | h, mv :: rest =>
    match is_in_check m
        (toBoard (sim_step g fromPos mv h).1 (sim_step g fromPos mv h).2)
        cur with
    | none => none
    | some true =>
      filter_self_checks_heap m g cur fromPos (sim_step g fromPos mv h).1 rest
    | some false =>
      match filter_self_checks_heap m g cur fromPos
          (sim_step g fromPos mv h).1 rest with
      | none => none
      | some (h', kept) => some (h', mv :: kept)

/-- A one-piece fixture: a white rook object on the heap… -/
def demoHeap : Heap := [⟨Kind.rook, Color.white, false⟩]

/-- …referenced from square `(0, 0)` of the grid. -/
def demoGrid : RefGrid := fun i j =>
  if i.val = 0 ∧ j.val = 0 then some 0 else none

end HeapModel

namespace Chess

/-! ## Basic lemmas about the grid -/

theorem toIdx_val_of_inRange {i : Int} (h0 : 0 ≤ i) (h8 : i < 8) :
    (toIdx i).val = i.toNat := by
  unfold toIdx
  simp only
  rw [Int.emod_eq_of_lt h0 h8]
  omega

theorem toIdx_inj {i j : Int} (hi0 : 0 ≤ i) (hi8 : i < 8) (hj0 : 0 ≤ j)
    (hj8 : j < 8) (h : toIdx i = toIdx j) : i = j := by
  have hv : (toIdx i).val = (toIdx j).val := by rw [h]
  rw [toIdx_val_of_inRange hi0 hi8, toIdx_val_of_inRange hj0 hj8] at hv
  omega

theorem get_piece_of_inBounds {α : Type} (b : Fin 8 → Fin 8 → Option α)
    {q : Pos} (hq : inBounds q) :
    get_piece b q = b (toIdx q.1) (toIdx q.2) := by
  obtain ⟨h1, h2, h3, h4⟩ := hq
  unfold get_piece
  rw [if_pos ⟨by omega, by omega, by omega, by omega⟩]

theorem set_cell_of_inBounds {α : Type} (b : Fin 8 → Fin 8 → Option α)
    {q : Pos} (v : Option α) (hq : inBounds q) :
    set_cell b q v =
      Function.update b (toIdx q.1)
        (Function.update (b (toIdx q.1)) (toIdx q.2) v) := by
  obtain ⟨h1, h2, h3, h4⟩ := hq
  unfold set_cell
  rw [if_pos ⟨by omega, by omega, by omega, by omega⟩]

theorem get_piece_set_cell_same {α : Type} (b : Fin 8 → Fin 8 → Option α)
    {q : Pos} (v : Option α) (hq : inBounds q) :
    get_piece (set_cell b q v) q = v := by
  rw [get_piece_of_inBounds _ hq, set_cell_of_inBounds b v hq,
    Function.update_same, Function.update_same]

theorem get_piece_set_cell_ne {α : Type} (b : Fin 8 → Fin 8 → Option α)
    {q q' : Pos} (v : Option α) (hq : inBounds q) (hq' : inBounds q')
    (hne : q' ≠ q) :
    get_piece (set_cell b q v) q' = get_piece b q' := by
  rw [get_piece_of_inBounds _ hq', get_piece_of_inBounds _ hq',
    set_cell_of_inBounds b v hq]
  by_cases hx : toIdx q'.1 = toIdx q.1
  · have hx' : q'.1 = q.1 := toIdx_inj hq'.1 hq'.2.1 hq.1 hq.2.1 hx
    have hy : toIdx q'.2 ≠ toIdx q.2 := by
      intro hy
      exact hne (Prod.ext hx' (toIdx_inj hq'.2.2.1 hq'.2.2.2 hq.2.2.1 hq.2.2.2 hy))
    rw [hx, Function.update_same, Function.update_noteq hy]
  · rw [Function.update_noteq hx]

/-- Splitting a sum over `Fin 8` at one index, through an update. -/
theorem sum_comp_update {β : Type} (h : Fin 8 → β) (i0 : Fin 8) (v : β)
    (G : β → Nat) :
    (∑ i : Fin 8, G (Function.update h i0 v i)) =
      G v + ∑ i ∈ Finset.univ.erase i0, G (h i) := by
  rw [← Finset.add_sum_erase _ (fun i => G (Function.update h i0 v i))
    (Finset.mem_univ i0)]
  congr 1
  · rw [Function.update_same]
  · exact Finset.sum_congr rfl fun i hi => by
      rw [Function.update_noteq (Finset.ne_of_mem_erase hi)]

/-- Splitting a sum over `Fin 8` at one index. -/
theorem sum_comp_split {β : Type} (h : Fin 8 → β) (i0 : Fin 8) (G : β → Nat) :
    (∑ i : Fin 8, G (h i)) = G (h i0) + ∑ i ∈ Finset.univ.erase i0, G (h i) :=
  (Finset.add_sum_erase _ (fun i => G (h i)) (Finset.mem_univ i0)).symm

/-- Updating one in-bounds cell changes the population by exactly the
occupancy difference of the old and new content. -/
theorem population_set_cell {α : Type} (b : Fin 8 → Fin 8 → Option α)
    {q : Pos} (v : Option α) (hq : inBounds q) :
    population (set_cell b q v) + (if (get_piece b q).isSome then 1 else 0) =
      population b + (if v.isSome then 1 else 0) := by
  rw [get_piece_of_inBounds _ hq, set_cell_of_inBounds b v hq]
  unfold population
  rw [sum_comp_update b (toIdx q.1) _
    (fun row => ∑ j : Fin 8, if (row j).isSome then 1 else 0)]
  rw [sum_comp_split b (toIdx q.1)
    (fun row => ∑ j : Fin 8, if (row j).isSome then 1 else 0)]
  rw [sum_comp_update (b (toIdx q.1)) (toIdx q.2) v
    (fun o => if o.isSome then 1 else 0)]
  rw [sum_comp_split (b (toIdx q.1)) (toIdx q.2)
    (fun o => if o.isSome then 1 else 0)]
  omega

theorem mem_intRange {j lo hi : Int} :
    j ∈ intRange lo hi ↔ lo ≤ j ∧ j < hi := by
  unfold intRange
  rw [List.mem_map]
  constructor
  · rintro ⟨k, hk, rfl⟩
    rw [List.mem_range] at hk
    omega
  · rintro ⟨h1, h2⟩
    refine ⟨(j - lo).toNat, ?_, ?_⟩
    · rw [List.mem_range]
      omega
    · omega

/-! ## Bounds and color discipline of the candidate generators -/

/-- The property of a destination square demanded by §8 of the spec:
on the board, and there is no same-color occupant. -/
def target_ok {α : Type} (color_of : α → Color) (b : Fin 8 → Fin 8 → Option α)
    (c : Color) (q : Pos) : Prop :=
  inBounds q ∧ ∀ p, get_piece b q = some p → color_of p ≠ c

theorem ray_walk_ok (b : Board) (c : Color) (x y dx dy : Int)
    (steps : List Int) :
    ∀ m ∈ ray_walk b c x y dx dy steps, target_ok Piece.color b c m := by
  induction steps with
  | nil => intro m hm; simp [ray_walk] at hm
  | cons s rest ih =>
    intro m hm
    unfold ray_walk at hm
    by_cases hin : inBounds (x + dx * s, y + dy * s)
    · rw [if_pos hin] at hm
      rcases hocc : get_piece b (x + dx * s, y + dy * s) with _ | p
      · simp only [hocc] at hm
        rcases List.mem_cons.mp hm with rfl | hm'
        · exact ⟨hin, fun p hp => by rw [hocc] at hp; cases hp⟩
        · exact ih m hm'
      · simp only [hocc] at hm
        by_cases hc : p.color ≠ c
        · rw [if_pos hc] at hm
          rcases List.mem_singleton.mp hm with rfl
          exact ⟨hin, fun p' hp' => by
            rw [hocc] at hp'; cases hp'; exact hc⟩
        · rw [if_neg hc] at hm
          cases hm
    · rw [if_neg hin] at hm
      exact ih m hm

theorem offset_targets_ok (b : Board) (c : Color) (x y : Int)
    (offs : List (Int × Int)) :
    ∀ m ∈ offset_targets b c x y offs, target_ok Piece.color b c m := by
  intro m hm
  unfold offset_targets at hm
  rcases List.mem_filterMap.mp hm with ⟨d, _, hd⟩
  by_cases hin : inBounds (x + d.1, y + d.2)
  · rw [if_pos hin] at hd
    rcases hocc : get_piece b (x + d.1, y + d.2) with _ | p
    · simp only [hocc] at hd
      cases hd
      exact ⟨hin, fun p hp => by rw [hocc] at hp; cases hp⟩
    · simp only [hocc] at hd
      by_cases hc : p.color ≠ c
      · rw [if_pos hc] at hd
        cases hd
        exact ⟨hin, fun p' hp' => by rw [hocc] at hp'; cases hp'; exact hc⟩
      · rw [if_neg hc] at hd
        cases hd
  · rw [if_neg hin] at hd
    cases hd

theorem rook_moves_ok (b : Board) (c : Color) (x y : Int) :
    ∀ m ∈ rook_moves b c x y, target_ok Piece.color b c m := by
  intro m hm
  unfold rook_moves at hm
  rcases List.mem_flatMap.mp hm with ⟨d, _, hd⟩
  exact ray_walk_ok b c x y d.1 d.2 raySteps m hd

theorem bishop_moves_ok (b : Board) (c : Color) (x y : Int) :
    ∀ m ∈ bishop_moves b c x y, target_ok Piece.color b c m := by
  intro m hm
  unfold bishop_moves at hm
  rcases List.mem_flatMap.mp hm with ⟨d, _, hd⟩
  exact ray_walk_ok b c x y d.1 d.2 raySteps m hd

theorem queen_moves_ok (b : Board) (c : Color) (x y : Int) :
    ∀ m ∈ queen_moves b c x y, target_ok Piece.color b c m := by
  intro m hm
  unfold queen_moves at hm
  rcases List.mem_append.mp hm with h | h
  · exact rook_moves_ok b c x y m h
  · exact bishop_moves_ok b c x y m h

theorem knight_moves_ok (b : Board) (c : Color) (x y : Int) :
    ∀ m ∈ knight_moves b c x y, target_ok Piece.color b c m :=
  offset_targets_ok b c x y _

theorem king_basic_ok (b : Board) (c : Color) (x y : Int) :
    ∀ m ∈ king_basic b c x y, target_ok Piece.color b c m :=
  offset_targets_ok b c x y _

/-- A pawn that is not standing on the rank its own forward step leaves
the board from only generates in-bounds, capture-clean moves (without
an en-passant record; the en-passant candidate is analysed separately). -/
theorem pawn_moves_ok (b : Board) (c : Color) (x y : Int)
    (hx0 : 0 ≤ x) (hx8 : x < 8) (hy0 : 0 ≤ y) (hy8 : y < 8)
    (hfwd : 0 ≤ x + pawnDirection c ∧ x + pawnDirection c < 8) :
    ∀ m ∈ pawn_moves b c x y none, target_ok Piece.color b c m := by
  intro m hm
  unfold pawn_moves at hm
  simp only [List.append_nil] at hm
  rcases List.mem_append.mp hm with hf | hc
  · by_cases h1 : 0 ≤ x + pawnDirection c ∧ x + pawnDirection c < 8 ∧
        get_piece b (x + pawnDirection c, y) = none
    · rw [if_pos h1] at hf
      rcases List.mem_cons.mp hf with rfl | hf'
      · exact ⟨⟨h1.1, h1.2.1, hy0, hy8⟩,
          fun p hp => by rw [h1.2.2] at hp; cases hp⟩
      · by_cases h2 : x = pawnStartRow c ∧
            get_piece b (x + pawnDirection c + pawnDirection c, y) = none
        · rw [if_pos h2] at hf'
          rcases List.mem_singleton.mp hf' with rfl
          refine ⟨⟨?_, ?_, hy0, hy8⟩, fun p hp => by rw [h2.2] at hp; cases hp⟩
          · rcases c with _ | _ <;> simp_all [pawnStartRow, pawnDirection]
          · rcases c with _ | _ <;> simp_all [pawnStartRow, pawnDirection]
        · rw [if_neg h2] at hf'
          cases hf'
    · rw [if_neg h1] at hf
      cases hf
  · rcases List.mem_filterMap.mp hc with ⟨dy, hdy, hd⟩
    by_cases h1 : 0 ≤ y + dy ∧ y + dy < 8
    · rw [if_pos h1] at hd
      rcases hocc : get_piece b (x + pawnDirection c, y + dy) with _ | p
      · simp only [hocc] at hd
        cases hd
      · simp only [hocc] at hd
        by_cases hcol : p.color ≠ c
        · rw [if_pos hcol] at hd
          cases hd
          exact ⟨⟨hfwd.1, hfwd.2, h1.1, h1.2⟩,
            fun p' hp' => by rw [hocc] at hp'; cases hp'; exact hcol⟩
        · rw [if_neg hcol] at hd
          cases hd
    · rw [if_neg h1] at hd
      cases hd

/-! ## Structure of the king's candidate list -/

theorem offset_targets_shape (b : Board) (c : Color) (x y : Int)
    (offs : List (Int × Int)) :
    ∀ m ∈ offset_targets b c x y offs, ∃ d ∈ offs, m = (x + d.1, y + d.2) := by
  intro m hm
  unfold offset_targets at hm
  rcases List.mem_filterMap.mp hm with ⟨d, hd, hf⟩
  refine ⟨d, hd, ?_⟩
  by_cases hin : inBounds (x + d.1, y + d.2)
  · rw [if_pos hin] at hf
    rcases hocc : get_piece b (x + d.1, y + d.2) with _ | p
    · simp only [hocc] at hf
      cases hf
      rfl
    · simp only [hocc] at hf
      by_cases hc : p.color ≠ c
      · rw [if_pos hc] at hf
        cases hf
        rfl
      · rw [if_neg hc] at hf
        cases hf
  · rw [if_neg hin] at hf
    cases hf

/-- Every basic king move stays within one column of the king. -/
theorem king_basic_col (b : Board) (c : Color) (x y : Int) :
    ∀ m ∈ king_basic b c x y, m.2 = y - 1 ∨ m.2 = y ∨ m.2 = y + 1 := by
  intro m hm
  rcases offset_targets_shape b c x y kingDirections m hm with ⟨d, hd, rfl⟩
  simp only [kingDirections, List.mem_cons, List.mem_singleton] at hd
  rcases hd with rfl | rfl | rfl | rfl | rfl | rfl | rfl | rfl | h
  all_goals simp_all
  all_goals omega

/-- The emptiness half of `kingside_ready`. -/
theorem kingside_ready_empty {b : Board} {x y : Int}
    (h : kingside_ready b x y = true) :
    ∀ j : Int, y + 1 ≤ j → j < 7 → get_piece b (x, j) = none := by
  intro j h1 h2
  unfold kingside_ready at h
  rw [Bool.and_eq_true] at h
  have := List.all_eq_true.mp h.2 j (mem_intRange.mpr ⟨h1, h2⟩)
  exact of_decide_eq_true this

/-- The emptiness half of `queenside_ready`. -/
theorem queenside_ready_empty {b : Board} {x y : Int}
    (h : queenside_ready b x y = true) :
    ∀ j : Int, 1 ≤ j → j < y → get_piece b (x, j) = none := by
  intro j h1 h2
  unfold queenside_ready at h
  rw [Bool.and_eq_true] at h
  have := List.all_eq_true.mp h.2 j (mem_intRange.mpr ⟨h1, h2⟩)
  exact of_decide_eq_true this

/-- The rook half of `kingside_ready` / `queenside_ready`. -/
theorem rook_unmoved_at_spec {b : Board} {q : Pos}
    (h : rook_unmoved_at b q = true) :
    ∃ r, get_piece b q = some r ∧ r.kind = Kind.rook ∧ r.hasMoved = false := by
  unfold rook_unmoved_at at h
  rcases hocc : get_piece b q with _ | r
  · rw [hocc] at h
    cases h
  · rw [hocc] at h
    rw [Bool.and_eq_true, decide_eq_true_eq, decide_eq_true_eq] at h
    exact ⟨r, rfl, h.1, h.2⟩

/-- Case analysis of one castling side: if it returns a value, the list
is `[dest]` exactly when the readiness and both attack answers are
favourable, and `[]` otherwise. -/
theorem castle_side_cases {att : Pos → Option Bool} {transit dest : Pos}
    {ready : Bool} {l : List Pos}
    (h : castle_side att transit dest ready = some l) :
    (l = [dest] ∧ ready = true ∧ att transit = some false ∧
      att dest = some false) ∨
    (l = [] ∧ ¬(ready = true ∧ att transit = some false ∧
      att dest = some false)) := by
  unfold castle_side at h
  by_cases hr : ready = true
  · rw [if_pos hr] at h
    rcases ht : att transit with _ | bt
    · rw [ht] at h
      cases h
    · rw [ht] at h
      rcases bt with _ | _
      · rcases hd : att dest with _ | bd
        · simp only [hd] at h
          cases h
        · simp only [hd] at h
          rcases bd with _ | _
          · cases h
            exact Or.inl ⟨rfl, hr, rfl, rfl⟩
          · cases h
            exact Or.inr ⟨rfl, by
              rintro ⟨_, _, h3⟩
              cases h3⟩
      · simp only at h
        cases h
        exact Or.inr ⟨rfl, by
          rintro ⟨_, h2, _⟩
          cases h2⟩
  · rw [if_neg hr] at h
    cases h
    exact Or.inr ⟨rfl, fun hc => hr hc.1⟩

/-- Decomposition of a successful `king_moves_given` call for an
unmoved king. -/
theorem king_moves_given_some {att : Pos → Option Bool} {b : Board}
    {p : Piece} {x y : Int} {ms : List Pos}
    (hnm : p.hasMoved = false) (h : king_moves_given att b p x y = some ms) :
    ∃ ks qs,
      castle_side att (x, y + 1) (x, y + 2) (kingside_ready b x y) = some ks ∧
      castle_side att (x, y - 1) (x, y - 2) (queenside_ready b x y) = some qs ∧
      ms = king_basic b p.color x y ++ ks ++ qs := by
  unfold king_moves_given at h
  rw [hnm] at h
  simp only [Bool.false_eq_true, if_false] at h
  rcases hks : castle_side att (x, y + 1) (x, y + 2) (kingside_ready b x y)
    with _ | ks
  · rw [hks] at h
    cases h
  · rw [hks] at h
    simp only at h
    rcases hqs : castle_side att (x, y - 1) (x, y - 2) (queenside_ready b x y)
      with _ | qs
    · rw [hqs] at h
      cases h
    · rw [hqs] at h
      simp only at h
      cases h
      exact ⟨ks, qs, rfl, rfl, rfl⟩

/-- The two-square candidates of an unmoved king are present exactly
under the castling conditions the code tests: rook unmoved, path empty,
and transit/destination squares reported safe.  (The king's own square
is not part of the test.) -/
theorem king_castling_characterization {att : Pos → Option Bool} {b : Board}
    {p : Piece} {x y : Int} {ms : List Pos}
    (hnm : p.hasMoved = false) (h : king_moves_given att b p x y = some ms) :
    ((x, y + 2) ∈ ms ↔ kingside_ready b x y = true ∧
      att (x, y + 1) = some false ∧ att (x, y + 2) = some false) ∧
    ((x, y - 2) ∈ ms ↔ queenside_ready b x y = true ∧
      att (x, y - 1) = some false ∧ att (x, y - 2) = some false) := by
  rcases king_moves_given_some hnm h with ⟨ks, qs, hks, hqs, rfl⟩
  have hbk : (x, y + 2) ∉ king_basic b p.color x y := by
    intro hmem
    rcases king_basic_col b p.color x y _ hmem with h' | h' | h' <;>
      simp only at h' <;> omega
  have hbq : (x, y - 2) ∉ king_basic b p.color x y := by
    intro hmem
    rcases king_basic_col b p.color x y _ hmem with h' | h' | h' <;>
      simp only at h' <;> omega
  have hne : ((x, y + 2) : Pos) ≠ (x, y - 2) := by
    intro h'
    have := congrArg Prod.snd h'
    simp only at this
    omega
  constructor
  · rw [List.append_assoc, List.mem_append, List.mem_append]
    rcases castle_side_cases hks with ⟨rfl, hcond⟩ | ⟨rfl, hcond⟩
    · constructor
      · intro _
        exact hcond
      · intro _
        exact Or.inr (Or.inl (List.mem_singleton.mpr rfl))
    · constructor
      · rintro (hmem | hmem | hmem)
        · exact absurd hmem hbk
        · cases hmem
        · rcases castle_side_cases hqs with ⟨rfl, _⟩ | ⟨rfl, _⟩
          · exact absurd (List.mem_singleton.mp hmem) hne
          · cases hmem
      · intro hcond'
        exact absurd hcond' hcond
  · rw [List.append_assoc, List.mem_append, List.mem_append]
    rcases castle_side_cases hqs with ⟨rfl, hcond⟩ | ⟨rfl, hcond⟩
    · constructor
      · intro _
        exact hcond
      · intro _
        exact Or.inr (Or.inr (List.mem_singleton.mpr rfl))
    · constructor
      · rintro (hmem | hmem | hmem)
        · exact absurd hmem hbq
        · rcases castle_side_cases hks with ⟨rfl, _⟩ | ⟨rfl, _⟩
          · exact absurd (List.mem_singleton.mp hmem) hne.symm
          · cases hmem
        · cases hmem
      · intro hcond'
        exact absurd hcond' hcond

/-! ## Stepping the attack scan -/

theorem attack_scan_cons_none {f : Piece → Pos → Option (List Pos)} {b : Board}
    {t : Pos} {a : Color} {q : Pos} {rest : List Pos}
    (h : get_piece b q = none) :
    attack_scan f b t a (q :: rest) = attack_scan f b t a rest := by
  conv_lhs => unfold attack_scan
  rw [h]

theorem attack_scan_cons_other {f : Piece → Pos → Option (List Pos)} {b : Board}
    {t : Pos} {a : Color} {q : Pos} {rest : List Pos} {p : Piece}
    (h : get_piece b q = some p) (hc : p.color ≠ a) :
    attack_scan f b t a (q :: rest) = attack_scan f b t a rest := by
  conv_lhs => unfold attack_scan
  simp only [h]
  rw [if_neg hc]

theorem attack_scan_cons_attacker {f : Piece → Pos → Option (List Pos)}
    {b : Board} {t : Pos} {a : Color} {q : Pos} {rest : List Pos} {p : Piece}
    (h : get_piece b q = some p) (hc : p.color = a) :
    attack_scan f b t a (q :: rest) =
      match f p q with
      | none => none
      | some ms => if t ∈ ms then some true else attack_scan f b t a rest := by
  conv_lhs => unfold attack_scan
  simp only [h]
  rw [if_pos hc]

/-- Squares holding no piece of the attacking color are skipped. -/
theorem attack_scan_append_skip {f : Piece → Pos → Option (List Pos)}
    {b : Board} {t : Pos} {a : Color} (l1 : List Pos) (l2 : List Pos)
    (h : ∀ q ∈ l1, ∀ p, get_piece b q = some p → p.color ≠ a) :
    attack_scan f b t a (l1 ++ l2) = attack_scan f b t a l2 := by
  induction l1 with
  | nil => rfl
  | cons q rest ih =>
    rw [List.cons_append]
    rcases hq : get_piece b q with _ | p
    · rw [attack_scan_cons_none hq]
      exact ih fun q' hq' => h q' (List.mem_cons_of_mem q hq')
    · rw [attack_scan_cons_other hq (h q (List.mem_cons_self q rest) p hq)]
      exact ih fun q' hq' => h q' (List.mem_cons_of_mem q hq')

/-! ## The castling/attack deadlock (claim C1) -/

/-- Unfolding one fuel step of a king evaluation. -/
theorem get_valid_moves_king_succ (m : Nat) (b : Board) (c : Color) (hm : Bool)
    (pos : Pos) (lm : LastMove) :
    get_valid_moves (m + 1) b ⟨Kind.king, c, hm⟩ pos lm =
      king_moves_given
        (fun q =>
          attack_scan (fun p' q' => get_valid_moves m b p' q' none) b q
            (opposite c) allSquares)
        b ⟨Kind.king, c, hm⟩ pos.1 pos.2 := rfl

theorem castle_side_none {att : Pos → Option Bool} {transit dest : Pos}
    {ready : Bool} (hr : ready = true) (ht : att transit = none) :
    castle_side att transit dest ready = none := by
  unfold castle_side
  rw [if_pos hr, ht]

theorem king_moves_given_none_of_ks {att : Pos → Option Bool} {b : Board}
    {p : Piece} {x y : Int} (hnm : p.hasMoved = false)
    (hks : castle_side att (x, y + 1) (x, y + 2) (kingside_ready b x y) =
      none) :
    king_moves_given att b p x y = none := by
  unfold king_moves_given
  rw [hnm]
  simp only [Bool.false_eq_true, if_false, hks]

/-- Scanning for a black attacker of the white transit square reaches
the black king at `(0, 4)` after four empty squares; when evaluating
that king does not terminate, neither does the scan. -/
theorem deadlock_scan_white (f : Piece → Pos → Option (List Pos))
    (hf : f ⟨Kind.king, Color.black, false⟩ (0, 4) = none) :
    attack_scan f deadlockBoard (7, 5) Color.black allSquares = none := by
  rw [show allSquares =
      ([(0, 0), (0, 1), (0, 2), (0, 3)] : List Pos) ++
        ((0, 4) :: allSquares.drop 5) by decide]
  rw [attack_scan_append_skip _ _ (by decide)]
  rw [attack_scan_cons_attacker
    (show get_piece deadlockBoard (0, 4) =
      some ⟨Kind.king, Color.black, false⟩ by decide) rfl]
  rw [hf]

/-- Symmetrically, the scan for a white attacker of the black transit
square reaches the white king at `(7, 4)` after sixty skipped squares. -/
theorem deadlock_scan_black (f : Piece → Pos → Option (List Pos))
    (hf : f ⟨Kind.king, Color.white, false⟩ (7, 4) = none) :
    attack_scan f deadlockBoard (0, 5) Color.white allSquares = none := by
  rw [show allSquares =
      (allSquares.take 60) ++ ((7, 4) :: allSquares.drop 61) by decide]
  rw [attack_scan_append_skip _ _ (by decide)]
  rw [attack_scan_cons_attacker
    (show get_piece deadlockBoard (7, 4) =
      some ⟨Kind.king, Color.white, false⟩ by decide) rfl]
  rw [hf]

/-- At every fuel, evaluating either unmoved king of the deadlock
position fails: each one's kingside castling test asks whether its
transit square is attacked, which evaluates the other king, and so on
forever. -/
theorem deadlock_kings_never_terminate (n : Nat) :
    get_valid_moves n deadlockBoard ⟨Kind.king, Color.white, false⟩ (7, 4)
        none = none ∧
    get_valid_moves n deadlockBoard ⟨Kind.king, Color.black, false⟩ (0, 4)
        none = none := by
  induction n with
  | zero => exact ⟨by decide, by decide⟩
  | succ m ih =>
    refine ⟨?_, ?_⟩
    · rw [get_valid_moves_king_succ]
      exact king_moves_given_none_of_ks rfl
        (castle_side_none (by decide) (deadlock_scan_white _ ih.2))
    · rw [get_valid_moves_king_succ]
      exact king_moves_given_none_of_ks rfl
        (castle_side_none (by decide) (deadlock_scan_black _ ih.1))

/-- C1: claimed — for every board and king position `King.get_valid_moves`
terminates, the mutual recursion through `is_square_under_attack` being
well-founded even with both kings and kingside rooks unmoved over empty
kingside files.  In fact on exactly such a position (reachable from the
initial position) the evaluation of either king exhausts every recursion
budget: the Python original recurses without bound. -/
theorem c1_king_moves_never_terminate_on_deadlock :
    (kingside_ready deadlockBoard 7 4 = true ∧
      kingside_ready deadlockBoard 0 4 = true) ∧
    ∀ n : Nat,
      get_valid_moves n deadlockBoard ⟨Kind.king, Color.white, false⟩ (7, 4)
          none = none ∧
      get_valid_moves n deadlockBoard ⟨Kind.king, Color.black, false⟩ (0, 4)
          none = none :=
  ⟨⟨by decide, by decide⟩, deadlock_kings_never_terminate⟩

/-- C2: the source tests only the transit and destination squares of a
castling king, never the king's current square — on `checkCastleBoard`
the white king's square `e1` is attacked by the knight on `d3`, yet the
kingside castling candidate `(7, 6)` is still produced. -/
theorem c2_castle_offered_while_in_check :
    is_square_under_attack 0 checkCastleBoard (7, 4) Color.white =
      some true ∧
    ((7 : Int), (6 : Int)) ∈
      (get_valid_moves 1 checkCastleBoard ⟨Kind.king, Color.white, false⟩
        (7, 4) none).getD [] := by
  constructor
  · decide
  · decide

/-- C2 (amended): an unmoved king's two-square candidates are present
iff the rook of that side is present and unmoved, the squares strictly
between king and rook are empty, and the transit and destination squares
are not attacked.  (The king's current square is not tested, so castling
out of check is offered.) -/
theorem c2_castling_conditions (m : Nat) (b : Board) (c : Color) (x y : Int)
    (lm : LastMove) (ms : List Pos)
    (h : get_valid_moves (m + 1) b ⟨Kind.king, c, false⟩ (x, y) lm = some ms) :
    ((x, y + 2) ∈ ms ↔ kingside_ready b x y = true ∧
      is_square_under_attack m b (x, y + 1) c = some false ∧
      is_square_under_attack m b (x, y + 2) c = some false) ∧
    ((x, y - 2) ∈ ms ↔ queenside_ready b x y = true ∧
      is_square_under_attack m b (x, y - 1) c = some false ∧
      is_square_under_attack m b (x, y - 2) c = some false) := by
  rw [get_valid_moves_king_succ] at h
  exact king_castling_characterization rfl h

/-- Witness for `c2_castling_conditions` on `checkCastleBoard`. -/
theorem c2_castling_conditions_witness :
    ((7 : Int), (6 : Int)) ∈
      ([(6, 3), (6, 4), (6, 5), (7, 3), (7, 5), (7, 6)] : List Pos) :=
  ((c2_castling_conditions 0 checkCastleBoard Color.white 7 4 none
      [(6, 3), (6, 4), (6, 5), (7, 3), (7, 5), (7, 6)] (by decide)).1).mpr
    ⟨by decide, by decide, by decide⟩

/-! ## Bounds of a full king evaluation (claim C4) -/

/-- A king that has moved, or an unmoved king on the standard column 4,
only produces on-board, capture-clean candidates. -/
theorem king_moves_given_bounds {att : Pos → Option Bool} {b : Board}
    {c : Color} {hmv : Bool} {x y : Int} {ms : List Pos}
    (hin : inBounds (x, y)) (hyp : hmv = true ∨ y = 4)
    (h : king_moves_given att b ⟨Kind.king, c, hmv⟩ x y = some ms) :
    ∀ m ∈ ms, target_ok Piece.color b c m := by
  rcases Bool.eq_false_or_eq_true hmv with ht | hf
  · subst ht
    unfold king_moves_given at h
    rw [if_pos rfl] at h
    simp only [Option.some.injEq] at h
    subst h
    exact king_basic_ok b c x y
  · subst hf
    rcases hyp with h' | h'
    · cases h'
    · subst h'
      rcases king_moves_given_some rfl h with ⟨ks, qs, hks, hqs, rfl⟩
      intro m hm
      rw [List.append_assoc, List.mem_append] at hm
      rcases hm with hm | hm
      · exact king_basic_ok b c x 4 m hm
      · rw [List.mem_append] at hm
        rcases hm with hm | hm
        · rcases castle_side_cases hks with ⟨rfl, hcond, _, _⟩ | ⟨rfl, _⟩
          · rcases List.mem_singleton.mp hm with rfl
            have hempty : get_piece b (x, 4 + 2) = none :=
              kingside_ready_empty hcond (4 + 2) (by omega) (by omega)
            exact ⟨⟨hin.1, hin.2.1, by omega, by omega⟩,
              fun p hp => by rw [hempty] at hp; cases hp⟩
          · cases hm
        · rcases castle_side_cases hqs with ⟨rfl, hcond, _, _⟩ | ⟨rfl, _⟩
          · rcases List.mem_singleton.mp hm with rfl
            have hempty : get_piece b (x, 4 - 2) = none :=
              queenside_ready_empty hcond (4 - 2) (by omega) (by omega)
            exact ⟨⟨hin.1, hin.2.1, by omega, by omega⟩,
              fun p hp => by rw [hempty] at hp; cases hp⟩
          · cases hm

/-- The king case of `get_valid_moves` at any fuel, under the same
restrictions. -/
theorem get_valid_moves_king_bounds {n : Nat} {b : Board} {c : Color}
    {hmv : Bool} {x y : Int} {lm : LastMove} {ms : List Pos}
    (hin : inBounds (x, y)) (hyp : hmv = true ∨ y = 4)
    (h : get_valid_moves n b ⟨Kind.king, c, hmv⟩ (x, y) lm = some ms) :
    ∀ m ∈ ms, target_ok Piece.color b c m := by
  cases n with
  | zero => exact king_moves_given_bounds hin hyp h
  | succ m =>
    rw [get_valid_moves_king_succ] at h
    exact king_moves_given_bounds hin hyp h

/-! ## The en-passant window (claim C7) -/

/-- The shape of the forward part of `pawn_moves`. -/
theorem pawn_forward_cases {b : Board} {c : Color} {x y : Int} {m : Pos}
    (hm : m ∈ (if 0 ≤ x + pawnDirection c ∧ x + pawnDirection c < 8 ∧
        get_piece b (x + pawnDirection c, y) = none then
      ((x + pawnDirection c, y) : Pos) ::
        (if x = pawnStartRow c ∧
            get_piece b (x + pawnDirection c + pawnDirection c, y) = none then
          [(x + pawnDirection c + pawnDirection c, y)] else [])
      else [])) :
    m = (x + pawnDirection c, y) ∨
      m = (x + pawnDirection c + pawnDirection c, y) := by
  by_cases h1 : 0 ≤ x + pawnDirection c ∧ x + pawnDirection c < 8 ∧
      get_piece b (x + pawnDirection c, y) = none
  · rw [if_pos h1] at hm
    rcases List.mem_cons.mp hm with rfl | hm'
    · exact Or.inl rfl
    · by_cases h2 : x = pawnStartRow c ∧
          get_piece b (x + pawnDirection c + pawnDirection c, y) = none
      · rw [if_pos h2] at hm'
        exact Or.inr (List.mem_singleton.mp hm')
      · rw [if_neg h2] at hm'
        cases hm'
  · rw [if_neg h1] at hm
    cases hm

/-- Every square in the capture part of `pawn_moves` is occupied. -/
theorem pawn_capture_occupied {b : Board} {c : Color} {x y : Int} {m : Pos}
    (hm : m ∈ ([-1, 1] : List Int).filterMap fun dy =>
      if 0 ≤ y + dy ∧ y + dy < 8 then
        match get_piece b (x + pawnDirection c, y + dy) with
        | some p => if p.color ≠ c then some (x + pawnDirection c, y + dy)
            else none
        | none => none
      else none) :
    ∃ p, get_piece b m = some p := by
  rcases List.mem_filterMap.mp hm with ⟨dy, _, hd⟩
  by_cases h1 : 0 ≤ y + dy ∧ y + dy < 8
  · rw [if_pos h1] at hd
    rcases hocc : get_piece b (x + pawnDirection c, y + dy) with _ | p
    · simp only [hocc] at hd
      cases hd
    · simp only [hocc] at hd
      by_cases hc : p.color ≠ c
      · rw [if_pos hc] at hd
        cases hd
        exact ⟨p, hocc⟩
      · rw [if_neg hc] at hd
        cases hd
  · rw [if_neg h1] at hd
    cases hd

theorem pawnDirection_ne_zero (c : Color) : pawnDirection c ≠ 0 := by
  cases c <;> simp [pawnDirection]

/-- The en-passant candidate onto an *empty* diagonal square is offered
iff `last_move` records a pawn (of either color — the code never checks)
that advanced exactly two rows and landed on the mover's row at the
adjacent column. -/
theorem pawn_en_passant_iff (b : Board) (c : Color) (x y adj : Int)
    (lf lt : Pos) (hadj : adj = 1 ∨ adj = -1)
    (hempty : get_piece b (x + pawnDirection c, y + adj) = none) :
    ((x + pawnDirection c, y + adj) ∈ pawn_moves b c x y (some (lf, lt)) ↔
      (∃ q, get_piece b lt = some q ∧ q.kind = Kind.pawn) ∧
      (lf.1 - lt.1).natAbs = 2 ∧ lt.1 = x ∧ lt.2 = y + adj) := by
  have hdir := pawnDirection_ne_zero c
  unfold pawn_moves
  simp only [List.mem_append]
  constructor
  · rintro ((hf | hc) | he)
    · rcases pawn_forward_cases hf with h' | h'
      · have := congrArg Prod.snd h'
        simp only at this
        omega
      · have := congrArg Prod.fst h'
        simp only at this
        omega
    · rcases pawn_capture_occupied hc with ⟨p, hp⟩
      rw [hempty] at hp
      cases hp
    · rcases hocc : get_piece b lt with _ | q
      · simp only [hocc] at he
        cases he
      · simp only [hocc] at he
        by_cases hcond : q.kind = Kind.pawn ∧ (lf.1 - lt.1).natAbs = 2 ∧
            lt.1 = x ∧ (lt.2 = y + 1 ∨ lt.2 = y - 1)
        · rw [if_pos hcond] at he
          have h' := List.mem_singleton.mp he
          have h2 := congrArg Prod.snd h'
          simp only at h2
          exact ⟨⟨q, rfl, hcond.1⟩, hcond.2.1, hcond.2.2.1, by omega⟩
        · rw [if_neg hcond] at he
          cases he
  · rintro ⟨⟨q, hq, hqk⟩, h2, h3, h4⟩
    refine Or.inr ?_
    simp only [hq]
    rw [if_pos ⟨hqk, h2, h3, by omega⟩]
    rw [h4]
    exact List.mem_singleton.mpr rfl

/-- `execute_move` always overwrites `last_move` with the move it just
committed. -/
theorem execute_move_sets_last_move (s : GState) (fromPos toPos : Pos)
    (p : Piece) (choice : PromoChoice) :
    (execute_move s fromPos toPos p choice).lastMove =
      some (fromPos, toPos) := rfl

/-- So does every committed move of the session loop. -/
theorem session_move_sets_last_move {m : Nat} {s : GState} {f t : Pos}
    {ch : PromoChoice} {s' : GState} (h : session_move m s f t ch = some s') :
    s'.lastMove = some (f, t) := by
  unfold session_move at h
  rcases hp : get_piece s.board f with _ | p
  · rw [hp] at h
    cases h
  · simp only [hp] at h
    by_cases hc : p.color = s.current
    · rw [if_pos hc] at h
      rcases hv : get_valid_moves m s.board p f s.lastMove with _ | cands
      · simp only [hv] at h
        cases h
      · simp only [hv] at h
        rcases hfv : filter_self_checks m s.board s.current f cands
          with _ | valid
        · simp only [hfv] at h
          cases h
        · simp only [hfv] at h
          by_cases hok : valid ≠ [] ∧ t ∈ valid
          · rw [if_pos hok] at h
            cases h
            rfl
          · rw [if_neg hok] at h
            cases h
    · rw [if_neg hc] at h
      cases h

/-- C7: the pawn offers the en-passant diagonal onto an empty square iff
`last_move` records a pawn that advanced exactly two rows and landed on
the mover's row at an adjacent column; and `last_move` is overwritten by
every committed move, so the window closes one ply later. -/
theorem c7_en_passant_only_immediately_after_double_step :
    (∀ b c x y adj lf lt, (adj = 1 ∨ adj = -1) →
      get_piece b (x + pawnDirection c, y + adj) = none →
      ((x + pawnDirection c, y + adj) ∈ pawn_moves b c x y (some (lf, lt)) ↔
        (∃ q, get_piece b lt = some q ∧ q.kind = Kind.pawn) ∧
        (lf.1 - lt.1).natAbs = 2 ∧ lt.1 = x ∧ lt.2 = y + adj)) ∧
    (∀ s fromPos toPos p choice,
      (execute_move s fromPos toPos p choice).lastMove =
        some (fromPos, toPos)) ∧
    (∀ (m : Nat) (s : GState) f t ch s', session_move m s f t ch = some s' →
      s'.lastMove = some (f, t)) :=
  ⟨fun b c x y adj lf lt hadj hempty =>
      pawn_en_passant_iff b c x y adj lf lt hadj hempty,
    execute_move_sets_last_move,
    fun _ _ _ _ _ _ h => session_move_sets_last_move h⟩

/-- Witness for `c7_en_passant_only_immediately_after_double_step`:
white pawn `e5`, black pawn just arrived `d7–d5`, capture `d6`
offered. -/
theorem c7_en_passant_witness :
    ((2 : Int), (3 : Int)) ∈
      pawn_moves
        (board_of [((3, 4), ⟨Kind.pawn, Color.white, false⟩),
                   ((3, 3), ⟨Kind.pawn, Color.black, false⟩)])
        Color.white 3 4 (some ((1, 3), (3, 3))) :=
  (c7_en_passant_only_immediately_after_double_step.1
      (board_of [((3, 4), ⟨Kind.pawn, Color.white, false⟩),
                 ((3, 3), ⟨Kind.pawn, Color.black, false⟩)])
      Color.white 3 4 (-1) (1, 3) (3, 3) (Or.inr rfl) (by decide)).mpr
    ⟨⟨⟨Kind.pawn, Color.black, false⟩, by decide, rfl⟩, by decide, by decide,
      by decide⟩

/-! ## Effects of committing a move (claim C6) -/

/-- `Board.move_piece` without the castling branch: source emptied,
destination overwritten with the piece marked moved, all other squares
untouched, and the population drops by the destination's old
occupancy. -/
theorem move_piece_plain {b : Board} {f t : Pos} {p : Piece}
    (hp : get_piece b f = some p) (hf : inBounds f) (ht : inBounds t)
    (hne : f ≠ t)
    (hnc : ¬(p.kind = Kind.king ∧ (f.2 - t.2).natAbs = 2)) :
    get_piece (move_piece b f t) f = none ∧
    get_piece (move_piece b f t) t = some { p with hasMoved := true } ∧
    population (move_piece b f t) +
      (if (get_piece b t).isSome then 1 else 0) = population b ∧
    ∀ q, inBounds q → q ≠ f → q ≠ t →
      get_piece (move_piece b f t) q = get_piece b q := by
  unfold move_piece
  simp only [hp]
  rw [if_neg hnc]
  refine ⟨get_piece_set_cell_same _ _ hf, ?_, ?_, ?_⟩
  · rw [get_piece_set_cell_ne _ _ hf ht (Ne.symm hne),
      get_piece_set_cell_same _ _ ht]
  · have e1 := population_set_cell
      (set_cell b t (some { p with hasMoved := true })) (none (α := Piece)) hf
    have hXf : get_piece (set_cell b t (some { p with hasMoved := true })) f =
        get_piece b f := get_piece_set_cell_ne _ _ ht hf hne
    have e2 := population_set_cell b (some { p with hasMoved := true }) ht
    rw [hXf, hp] at e1
    rcases hocc : get_piece b t with _ | q <;>
      rw [hocc] at e2 <;> simp at e1 e2 ⊢ <;> omega
  · intro q hq hqf hqt
    rw [get_piece_set_cell_ne _ _ hf hq hqf,
      get_piece_set_cell_ne _ _ ht hq hqt]

/-- `Board.move_piece` on a kingside castle: king and rook relocated,
their source squares emptied, population unchanged. -/
theorem move_piece_castle_kingside {b : Board} {x y : Int} {p r : Piece}
    (hp : get_piece b (x, y) = some p) (hk : p.kind = Kind.king)
    (hin : inBounds (x, y)) (hin2 : inBounds (x, y + 2)) (h27 : y + 2 ≠ 7)
    (hr : get_piece b (x, 7) = some r)
    (ht1 : get_piece b (x, y + 1) = none)
    (ht2 : get_piece b (x, y + 2) = none) :
    get_piece (move_piece b (x, y) (x, y + 2)) (x, y) = none ∧
    get_piece (move_piece b (x, y) (x, y + 2)) (x, y + 2) =
      some { p with hasMoved := true } ∧
    get_piece (move_piece b (x, y) (x, y + 2)) (x, 7) = none ∧
    get_piece (move_piece b (x, y) (x, y + 2)) (x, y + 1) = some r ∧
    population (move_piece b (x, y) (x, y + 2)) = population b := by
  have hy0 : 0 ≤ y := hin.2.2.1
  have hy8 : y < 8 := hin.2.2.2
  have hy2 : y + 2 < 8 := hin2.2.2.2
  have hb1 : inBounds ((x, y + 1) : Pos) :=
    ⟨hin.1, hin.2.1, by omega, by omega⟩
  have hb7 : inBounds ((x, (7 : Int)) : Pos) :=
    ⟨hin.1, hin.2.1, by omega, by omega⟩
  have hmv : move_piece b (x, y) (x, y + 2) =
      set_cell (set_cell (set_cell (set_cell b (x, y + 1) (some r)) (x, 7)
        none) (x, y + 2) (some { p with hasMoved := true })) (x, y) none := by
    unfold move_piece
    simp only [hp]
    rw [if_pos ⟨hk, show ((y : Int) - (y + 2)).natAbs = 2 by omega⟩]
    rw [if_pos (show ((y : Int) + 2) > y by omega)]
    norm_num
    rw [show ((y : Int) + 2 - 1) = y + 1 by ring]
    rw [hr]
  rw [hmv]
  have d1 : ((x, y) : Pos) ≠ (x, y + 2) := by
    intro h
    rw [Prod.mk.injEq] at h
    omega
  have d2 : ((x, y) : Pos) ≠ (x, 7) := by
    intro h
    rw [Prod.mk.injEq] at h
    omega
  have d3 : ((x, y) : Pos) ≠ (x, y + 1) := by
    intro h
    rw [Prod.mk.injEq] at h
    omega
  have d4 : ((x, y + 2) : Pos) ≠ (x, 7) := by
    intro h
    rw [Prod.mk.injEq] at h
    omega
  have d5 : ((x, y + 2) : Pos) ≠ (x, y + 1) := by
    intro h
    rw [Prod.mk.injEq] at h
    omega
  have d6 : ((x, (7 : Int)) : Pos) ≠ (x, y + 1) := by
    intro h
    rw [Prod.mk.injEq] at h
    omega
  refine ⟨get_piece_set_cell_same _ _ hin, ?_, ?_, ?_, ?_⟩
  · rw [get_piece_set_cell_ne _ _ hin hin2 (Ne.symm d1),
      get_piece_set_cell_same _ _ hin2]
  · rw [get_piece_set_cell_ne _ _ hin hb7 (Ne.symm d2),
      get_piece_set_cell_ne _ _ hin2 hb7 (Ne.symm d4),
      get_piece_set_cell_same _ _ hb7]
  · rw [get_piece_set_cell_ne _ _ hin hb1 (Ne.symm d3),
      get_piece_set_cell_ne _ _ hin2 hb1 (Ne.symm d5),
      get_piece_set_cell_ne _ _ hb7 hb1 (Ne.symm d6),
      get_piece_set_cell_same _ _ hb1]
  · have e1 := population_set_cell b (some r) hb1
    have e2 := population_set_cell (set_cell b (x, y + 1) (some r))
      (none (α := Piece)) hb7
    have e3 := population_set_cell
      (set_cell (set_cell b (x, y + 1) (some r)) (x, 7) none)
      (some { p with hasMoved := true }) hin2
    have e4 := population_set_cell
      (set_cell (set_cell (set_cell b (x, y + 1) (some r)) (x, 7) none)
        (x, y + 2) (some { p with hasMoved := true }))
      (none (α := Piece)) hin
    rw [ht1] at e1
    rw [get_piece_set_cell_ne _ _ hb1 hb7 d6, hr] at e2
    rw [get_piece_set_cell_ne _ _ hb7 hin2 d4,
      get_piece_set_cell_ne _ _ hb1 hin2 d5, ht2] at e3
    rw [get_piece_set_cell_ne _ _ hin2 hin d1,
      get_piece_set_cell_ne _ _ hb7 hin d2,
      get_piece_set_cell_ne _ _ hb1 hin d3, hp] at e4
    simp at e1 e2 e3 e4 ⊢
    omega

/-- `Board.move_piece` on a queenside castle: king and rook relocated,
their source squares emptied, population unchanged. -/
theorem move_piece_castle_queenside {b : Board} {x y : Int} {p r : Piece}
    (hp : get_piece b (x, y) = some p) (hk : p.kind = Kind.king)
    (hin : inBounds (x, y)) (hin2 : inBounds (x, y - 2)) (h20 : y - 2 ≠ 0)
    (hr : get_piece b (x, 0) = some r)
    (ht1 : get_piece b (x, y - 1) = none)
    (ht2 : get_piece b (x, y - 2) = none) :
    get_piece (move_piece b (x, y) (x, y - 2)) (x, y) = none ∧
    get_piece (move_piece b (x, y) (x, y - 2)) (x, y - 2) =
      some { p with hasMoved := true } ∧
    get_piece (move_piece b (x, y) (x, y - 2)) (x, 0) = none ∧
    get_piece (move_piece b (x, y) (x, y - 2)) (x, y - 1) = some r ∧
    population (move_piece b (x, y) (x, y - 2)) = population b := by
  have hy2 : 0 ≤ y - 2 := hin2.2.2.1
  have hy8 : y < 8 := hin.2.2.2
  have hb1 : inBounds ((x, y - 1) : Pos) :=
    ⟨hin.1, hin.2.1, by omega, by omega⟩
  have hb0 : inBounds ((x, (0 : Int)) : Pos) :=
    ⟨hin.1, hin.2.1, by omega, by omega⟩
  have hmv : move_piece b (x, y) (x, y - 2) =
      set_cell (set_cell (set_cell (set_cell b (x, y - 1) (some r)) (x, 0)
        none) (x, y - 2) (some { p with hasMoved := true })) (x, y) none := by
    unfold move_piece
    simp only [hp]
    rw [if_pos ⟨hk, show ((y : Int) - (y - 2)).natAbs = 2 by omega⟩]
    rw [if_neg (show ¬((y : Int) - 2 > y) by omega)]
    norm_num
    rw [show ((y : Int) - 2 + 1) = y - 1 by ring]
    rw [hr]
  rw [hmv]
  have d1 : ((x, y) : Pos) ≠ (x, y - 2) := by
    intro h
    rw [Prod.mk.injEq] at h
    omega
  have d2 : ((x, y) : Pos) ≠ (x, 0) := by
    intro h
    rw [Prod.mk.injEq] at h
    omega
  have d3 : ((x, y) : Pos) ≠ (x, y - 1) := by
    intro h
    rw [Prod.mk.injEq] at h
    omega
  have d4 : ((x, y - 2) : Pos) ≠ (x, 0) := by
    intro h
    rw [Prod.mk.injEq] at h
    omega
  have d5 : ((x, y - 2) : Pos) ≠ (x, y - 1) := by
    intro h
    rw [Prod.mk.injEq] at h
    omega
  have d6 : ((x, (0 : Int)) : Pos) ≠ (x, y - 1) := by
    intro h
    rw [Prod.mk.injEq] at h
    omega
  refine ⟨get_piece_set_cell_same _ _ hin, ?_, ?_, ?_, ?_⟩
  · rw [get_piece_set_cell_ne _ _ hin hin2 (Ne.symm d1),
      get_piece_set_cell_same _ _ hin2]
  · rw [get_piece_set_cell_ne _ _ hin hb0 (Ne.symm d2),
      get_piece_set_cell_ne _ _ hin2 hb0 (Ne.symm d4),
      get_piece_set_cell_same _ _ hb0]
  · rw [get_piece_set_cell_ne _ _ hin hb1 (Ne.symm d3),
      get_piece_set_cell_ne _ _ hin2 hb1 (Ne.symm d5),
      get_piece_set_cell_ne _ _ hb0 hb1 (Ne.symm d6),
      get_piece_set_cell_same _ _ hb1]
  · have e1 := population_set_cell b (some r) hb1
    have e2 := population_set_cell (set_cell b (x, y - 1) (some r))
      (none (α := Piece)) hb0
    have e3 := population_set_cell
      (set_cell (set_cell b (x, y - 1) (some r)) (x, 0) none)
      (some { p with hasMoved := true }) hin2
    have e4 := population_set_cell
      (set_cell (set_cell (set_cell b (x, y - 1) (some r)) (x, 0) none)
        (x, y - 2) (some { p with hasMoved := true }))
      (none (α := Piece)) hin
    rw [ht1] at e1
    rw [get_piece_set_cell_ne _ _ hb1 hb0 d6, hr] at e2
    rw [get_piece_set_cell_ne _ _ hb0 hin2 d4,
      get_piece_set_cell_ne _ _ hb1 hin2 d5, ht2] at e3
    rw [get_piece_set_cell_ne _ _ hin2 hin d1,
      get_piece_set_cell_ne _ _ hb0 hin d2,
      get_piece_set_cell_ne _ _ hb1 hin d3, hp] at e4
    simp at e1 e2 e3 e4 ⊢
    omega

/-- For a non-pawn, `execute_move` is exactly `move_piece`. -/
theorem execute_move_board_not_pawn {s : GState} {f t : Pos} {p : Piece}
    {ch : PromoChoice} (hnp : p.kind ≠ Kind.pawn) :
    (execute_move s f t p ch).board = move_piece s.board f t := by
  simp only [execute_move]
  rw [if_neg (fun hc => hnp hc.1), if_neg (fun hc => hnp hc.1)]

/-- When neither the en-passant branch nor the promotion branch fires,
`execute_move` is exactly `move_piece`. -/
theorem execute_move_board_plain {s : GState} {f t : Pos} {p : Piece}
    {ch : PromoChoice}
    (hEP : ¬(p.kind = Kind.pawn ∧ t.2 ≠ f.2 ∧ get_piece s.board t = none))
    (hPr : ¬(p.kind = Kind.pawn ∧ (t.1 = 0 ∨ t.1 = 7))) :
    (execute_move s f t p ch).board = move_piece s.board f t := by
  simp only [execute_move]
  rw [if_neg hEP, if_neg hPr]

/-- The en-passant path of `execute_move`: the bypassed pawn square is
cleared, then the capturing pawn relocates; exactly one piece vanishes. -/
theorem execute_move_en_passant {s : GState} {f t : Pos} {p victim : Piece}
    {ch : PromoChoice}
    (hp : get_piece s.board f = some p) (hpk : p.kind = Kind.pawn)
    (hf : inBounds f) (ht : inBounds t)
    (hcol : t.2 ≠ f.2) (hrow : t.1 ≠ f.1)
    (hdest : get_piece s.board t = none)
    (hnp : ¬(t.1 = 0 ∨ t.1 = 7))
    (hv : get_piece s.board (f.1, t.2) = some victim) :
    get_piece (execute_move s f t p ch).board f = none ∧
    get_piece (execute_move s f t p ch).board t =
      some { p with hasMoved := true } ∧
    get_piece (execute_move s f t p ch).board (f.1, t.2) = none ∧
    population (execute_move s f t p ch).board + 1 = population s.board := by
  have hboard : (execute_move s f t p ch).board =
      move_piece (set_cell s.board (f.1, t.2) none) f t := by
    simp only [execute_move]
    rw [if_neg (fun hc => hnp hc.2), if_pos ⟨hpk, hcol, hdest⟩]
  have hin_e : inBounds ((f.1, t.2) : Pos) :=
    ⟨hf.1, hf.2.1, ht.2.2.1, ht.2.2.2⟩
  have hef : ((f.1, t.2) : Pos) ≠ f := by
    intro h
    rw [Prod.ext_iff] at h
    exact hcol h.2
  have het : ((f.1, t.2) : Pos) ≠ t := by
    intro h
    rw [Prod.ext_iff] at h
    exact hrow h.1.symm
  have hft : f ≠ t := by
    intro h
    rw [Prod.ext_iff] at h
    exact hrow h.1.symm
  have hp0 : get_piece (set_cell s.board (f.1, t.2) none) f = some p := by
    rw [get_piece_set_cell_ne _ _ hin_e hf (Ne.symm hef), hp]
  have hplain := move_piece_plain hp0 hf ht hft
    (fun hc => by rw [hpk] at hc; cases hc.1)
  have hdest0 : get_piece (set_cell s.board (f.1, t.2) none) t = none := by
    rw [get_piece_set_cell_ne _ _ hin_e ht (Ne.symm het), hdest]
  have hpop0 := population_set_cell s.board (none (α := Piece)) hin_e
  rw [hv] at hpop0
  rw [hboard]
  refine ⟨hplain.1, hplain.2.1, ?_, ?_⟩
  · rw [hplain.2.2.2 (f.1, t.2) hin_e hef het,
      get_piece_set_cell_same _ _ hin_e]
  · have := hplain.2.2.1
    rw [hdest0] at this
    simp at this hpop0
    omega

/-- The promotion path of `execute_move`: the destination ends up
holding the freshly created piece of the mover's color, and the
population books exactly the destination's old occupancy. -/
theorem execute_move_promotion {s : GState} {f t : Pos} {p : Piece}
    {ch : PromoChoice}
    (hp : get_piece s.board f = some p) (hpk : p.kind = Kind.pawn)
    (hf : inBounds f) (ht : inBounds t) (hne : f ≠ t)
    (hrank : t.1 = 0 ∨ t.1 = 7)
    (hEP : t.2 = f.2 ∨ get_piece s.board t ≠ none) :
    get_piece (execute_move s f t p ch).board f = none ∧
    get_piece (execute_move s f t p ch).board t =
      some ⟨ch.kind, s.current, false⟩ ∧
    population (execute_move s f t p ch).board +
      (if (get_piece s.board t).isSome then 1 else 0) = population s.board := by
  have hboard : (execute_move s f t p ch).board =
      set_cell (move_piece s.board f t) t (some ⟨ch.kind, s.current, false⟩)
      := by
    simp only [execute_move]
    rw [if_pos ⟨hpk, hrank⟩, if_neg]
    rintro ⟨_, hc2, hc3⟩
    rcases hEP with h' | h'
    · exact hc2 h'
    · exact h' hc3
  have hplain := move_piece_plain hp hf ht hne
    (fun hc => by rw [hpk] at hc; cases hc.1)
  rw [hboard]
  refine ⟨?_, get_piece_set_cell_same _ _ ht, ?_⟩
  · rw [get_piece_set_cell_ne _ _ ht hf hne, hplain.1]
  · have e := population_set_cell (move_piece s.board f t)
      (some (⟨ch.kind, s.current, false⟩ : Piece)) ht
    rw [hplain.2.1] at e
    have e2 := hplain.2.2.1
    rcases hocc : get_piece s.board t with _ | q <;>
      rw [hocc] at e2 <;> simp at e e2 ⊢ <;> omega

end Chess

namespace Checkers

open Chess

/-- Every simple move of a man lands on an empty on-board square. -/
theorem regular_moves_bounds (b : CheckersBoard) (p : CheckerPiece)
    (x y : Int) :
    ∀ m ∈ (regular_valid_moves b p x y).moves,
      inBounds m ∧ get_piece b m = none := by
  intro m hm
  unfold regular_valid_moves at hm
  simp only at hm
  rcases List.mem_filterMap.mp hm with ⟨d, _, hd⟩
  by_cases hin : is_within_board (x + d.1) (y + d.2)
  · rw [if_pos hin] at hd
    rcases hocc : get_piece b (x + d.1, y + d.2) with _ | t
    · simp only [hocc] at hd
      cases hd
      exact ⟨hin, hocc⟩
    · simp only [hocc] at hd
      cases hd
  · rw [if_neg hin] at hd
    cases hd

/-- Every capture of a man lands on an empty on-board square. -/
theorem regular_captures_bounds (b : CheckersBoard) (p : CheckerPiece)
    (x y : Int) :
    ∀ m ∈ (regular_valid_moves b p x y).captures,
      inBounds m ∧ get_piece b m = none := by
  intro m hm
  unfold regular_valid_moves at hm
  simp only at hm
  rcases List.mem_filterMap.mp hm with ⟨d, _, hd⟩
  by_cases hin : is_within_board (x + d.1) (y + d.2)
  · rw [if_pos hin] at hd
    rcases hocc : get_piece b (x + d.1, y + d.2) with _ | t
    · simp only [hocc] at hd
      cases hd
    · simp only [hocc] at hd
      by_cases hc : t.color ≠ p.color
      · rw [if_pos hc] at hd
        by_cases h2 : is_within_board (x + 2 * d.1) (y + 2 * d.2) ∧
            get_piece b (x + 2 * d.1, y + 2 * d.2) = none
        · rw [if_pos h2] at hd
          cases hd
          exact ⟨h2.1, h2.2⟩
        · rw [if_neg h2] at hd
          cases hd
      · rw [if_neg hc] at hd
        cases hd
  · rw [if_neg hin] at hd
    cases hd

/-- The king's extra one-square steps land on empty on-board squares. -/
theorem king_extra_moves_bounds (b : CheckersBoard) (x y : Int) :
    ∀ m ∈ king_extra_moves b x y, inBounds m ∧ get_piece b m = none := by
  intro m hm
  unfold king_extra_moves at hm
  rcases List.mem_filterMap.mp hm with ⟨d, _, hd⟩
  by_cases hin : is_within_board (x + d.1) (y + d.2) ∧
      get_piece b (x + d.1, y + d.2) = none
  · rw [if_pos hin] at hd
    cases hd
    exact ⟨hin.1, hin.2⟩
  · rw [if_neg hin] at hd
    cases hd

/-- Both returned sets of either checker kind stay on the board and
land only on empty squares. -/
theorem get_valid_moves_bounds (b : CheckersBoard) (p : CheckerPiece)
    (pos : Pos) :
    (∀ m ∈ (get_valid_moves b p pos).moves,
      inBounds m ∧ get_piece b m = none) ∧
    (∀ m ∈ (get_valid_moves b p pos).captures,
      inBounds m ∧ get_piece b m = none) := by
  unfold get_valid_moves
  by_cases hk : p.isKing = true
  · rw [if_pos hk]
    constructor
    · intro m hm
      unfold king_valid_moves at hm
      simp only at hm
      rcases List.mem_append.mp hm with hm' | hm'
      · exact regular_moves_bounds b p pos.1 pos.2 m hm'
      · exact king_extra_moves_bounds b pos.1 pos.2 m hm'
    · intro m hm
      exact regular_captures_bounds b p pos.1 pos.2 m hm
  · rw [if_neg hk]
    exact ⟨regular_moves_bounds b p pos.1 pos.2,
      regular_captures_bounds b p pos.1 pos.2⟩

/-! ## Shapes of the checker move sets -/

theorem regular_directions_vals {c : Color} {d : Int × Int}
    (hd : d ∈ regular_directions c) :
    (d.1 = 1 ∨ d.1 = -1) ∧ (d.2 = 1 ∨ d.2 = -1) := by
  unfold regular_directions at hd
  by_cases hc : c = Color.white
  · rw [if_pos hc] at hd
    rcases List.mem_cons.mp hd with rfl | hd'
    · exact ⟨Or.inr rfl, Or.inr rfl⟩
    · rcases List.mem_singleton.mp hd' with rfl
      exact ⟨Or.inr rfl, Or.inl rfl⟩
  · rw [if_neg hc] at hd
    rcases List.mem_cons.mp hd with rfl | hd'
    · exact ⟨Or.inl rfl, Or.inr rfl⟩
    · rcases List.mem_singleton.mp hd' with rfl
      exact ⟨Or.inl rfl, Or.inl rfl⟩

theorem regular_moves_shape {b : CheckersBoard} {p : CheckerPiece}
    {x y : Int} {m : Pos} (hm : m ∈ (regular_valid_moves b p x y).moves) :
    ∃ d ∈ regular_directions p.color, m = (x + d.1, y + d.2) := by
  unfold regular_valid_moves at hm
  simp only at hm
  rcases List.mem_filterMap.mp hm with ⟨d, hd, hf⟩
  refine ⟨d, hd, ?_⟩
  by_cases hin : is_within_board (x + d.1) (y + d.2)
  · rw [if_pos hin] at hf
    rcases hocc : get_piece b (x + d.1, y + d.2) with _ | t <;>
      simp only [hocc] at hf
    · cases hf
      rfl
    · cases hf
  · rw [if_neg hin] at hf
    cases hf

theorem king_extra_moves_shape {b : CheckersBoard} {x y : Int} {m : Pos}
    (hm : m ∈ king_extra_moves b x y) :
    ∃ d ∈ ([(-1, -1), (-1, 1), (1, -1), (1, 1)] : List (Int × Int)),
      m = (x + d.1, y + d.2) := by
  unfold king_extra_moves at hm
  rcases List.mem_filterMap.mp hm with ⟨d, hd, hf⟩
  refine ⟨d, hd, ?_⟩
  by_cases hin : is_within_board (x + d.1) (y + d.2) ∧
      get_piece b (x + d.1, y + d.2) = none
  · rw [if_pos hin] at hf
    cases hf
    rfl
  · rw [if_neg hin] at hf
    cases hf

theorem diag_directions_vals {d : Int × Int}
    (hd : d ∈ ([(-1, -1), (-1, 1), (1, -1), (1, 1)] : List (Int × Int))) :
    (d.1 = 1 ∨ d.1 = -1) ∧ (d.2 = 1 ∨ d.2 = -1) := by
  rcases List.mem_cons.mp hd with rfl | hd'
  · exact ⟨Or.inr rfl, Or.inr rfl⟩
  · rcases List.mem_cons.mp hd' with rfl | hd''
    · exact ⟨Or.inr rfl, Or.inl rfl⟩
    · rcases List.mem_cons.mp hd'' with rfl | hd'''
      · exact ⟨Or.inl rfl, Or.inr rfl⟩
      · rcases List.mem_singleton.mp hd''' with rfl
        exact ⟨Or.inl rfl, Or.inl rfl⟩

/-- Every simple move is exactly one row away from the start row. -/
theorem moves_row_dist {b : CheckersBoard} {p : CheckerPiece} {pos : Pos}
    {m : Pos} (hm : m ∈ (get_valid_moves b p pos).moves) :
    m.1 = pos.1 + 1 ∨ m.1 = pos.1 - 1 := by
  unfold get_valid_moves at hm
  by_cases hk : p.isKing = true
  · rw [if_pos hk] at hm
    unfold king_valid_moves at hm
    simp only at hm
    rcases List.mem_append.mp hm with hm' | hm'
    · rcases regular_moves_shape hm' with ⟨d, hd, rfl⟩
      have h1 := (regular_directions_vals hd).1
      have hfst : ((pos.1 + d.1, pos.2 + d.2) : Pos).1 = pos.1 + d.1 := rfl
      rw [hfst]
      omega
    · rcases king_extra_moves_shape hm' with ⟨d, hd, rfl⟩
      have h1 := (diag_directions_vals hd).1
      have hfst : ((pos.1 + d.1, pos.2 + d.2) : Pos).1 = pos.1 + d.1 := rfl
      rw [hfst]
      omega
  · rw [if_neg hk] at hm
    rcases regular_moves_shape hm with ⟨d, hd, rfl⟩
    have h1 := (regular_directions_vals hd).1
    have hfst : ((pos.1 + d.1, pos.2 + d.2) : Pos).1 = pos.1 + d.1 := rfl
    rw [hfst]
    omega

/-- The `captures` set is the man's one in both classes. -/
theorem get_valid_moves_captures (b : CheckersBoard) (p : CheckerPiece)
    (pos : Pos) :
    (get_valid_moves b p pos).captures =
      (regular_valid_moves b p pos.1 pos.2).captures := by
  unfold get_valid_moves
  by_cases hk : p.isKing = true
  · rw [if_pos hk]
    rfl
  · rw [if_neg hk]

theorem regular_captures_shape {b : CheckersBoard} {p : CheckerPiece}
    {x y : Int} {m : Pos} (hm : m ∈ (regular_valid_moves b p x y).captures) :
    ∃ d ∈ regular_directions p.color, ∃ v,
      m = (x + 2 * d.1, y + 2 * d.2) ∧
      get_piece b (x + d.1, y + d.2) = some v ∧ v.color ≠ p.color ∧
      is_within_board (x + d.1) (y + d.2) := by
  unfold regular_valid_moves at hm
  simp only at hm
  rcases List.mem_filterMap.mp hm with ⟨d, hd, hf⟩
  refine ⟨d, hd, ?_⟩
  by_cases hin : is_within_board (x + d.1) (y + d.2)
  · rw [if_pos hin] at hf
    rcases hocc : get_piece b (x + d.1, y + d.2) with _ | t <;>
      simp only [hocc] at hf
    · cases hf
    · by_cases hc : t.color ≠ p.color
      · rw [if_pos hc] at hf
        by_cases h2 : is_within_board (x + 2 * d.1) (y + 2 * d.2) ∧
            get_piece b (x + 2 * d.1, y + 2 * d.2) = none
        · rw [if_pos h2] at hf
          cases hf
          exact ⟨t, rfl, rfl, hc, hin⟩
        · rw [if_neg h2] at hf
          cases hf
      · rw [if_neg hc] at hf
        cases hf
  · rw [if_neg hin] at hf
    cases hf

/-- Every capture lands exactly two rows away from the start row. -/
theorem captures_row_dist {b : CheckersBoard} {p : CheckerPiece} {pos : Pos}
    {m : Pos} (hm : m ∈ (get_valid_moves b p pos).captures) :
    m.1 = pos.1 + 2 ∨ m.1 = pos.1 - 2 := by
  rw [get_valid_moves_captures] at hm
  rcases regular_captures_shape hm with ⟨d, hd, v, hmeq, _⟩
  have h1 := (regular_directions_vals hd).1
  rw [hmeq]
  have hfst : ((pos.1 + 2 * d.1, pos.2 + 2 * d.2) : Pos).1 = pos.1 + 2 * d.1 :=
    rfl
  rw [hfst]
  omega

/-- `check_promotion` on an occupied square: only that square can
change, it ends up holding the (possibly crowned) piece, and the
population is untouched. -/
theorem check_promotion_spec {b : CheckersBoard} {pos : Pos}
    {p : CheckerPiece} (hin : inBounds pos) (hp : get_piece b pos = some p) :
    (∀ q, inBounds q → q ≠ pos →
      get_piece (check_promotion b pos) q = get_piece b q) ∧
    get_piece (check_promotion b pos) pos =
      some (if p.isKing = false ∧
          ((p.color = Color.white ∧ pos.1 = 0) ∨
            (p.color = Color.black ∧ pos.1 = 7)) then
        (⟨p.color, true⟩ : CheckerPiece) else p) ∧
    population (check_promotion b pos) = population b := by
  unfold check_promotion
  simp only [hp]
  rcases Bool.eq_false_or_eq_true p.isKing with hk | hk
  · rw [if_pos hk]
    exact ⟨fun _ _ _ => rfl,
      by rw [hp, if_neg fun hc => by rw [hk] at hc; cases hc.1], rfl⟩
  · rw [if_neg (by rw [hk]; simp)]
    by_cases hcond : (p.color = Color.white ∧ pos.1 = 0) ∨
        (p.color = Color.black ∧ pos.1 = 7)
    · rw [if_pos hcond]
      refine ⟨fun q hq hqp => get_piece_set_cell_ne _ _ hin hq hqp, ?_, ?_⟩
      · rw [get_piece_set_cell_same _ _ hin, if_pos ⟨hk, hcond⟩]
      · have e := population_set_cell b
          (some (⟨p.color, true⟩ : CheckerPiece)) hin
        rw [hp] at e
        simp at e
        omega
    · rw [if_neg hcond]
      exact ⟨fun _ _ _ => rfl, by rw [hp, if_neg fun hc => hcond hc.2], rfl⟩

/-- A validated simple move: relocation plus (possible) promotion, with
the population unchanged. -/
theorem move_piece_simple {b : CheckersBoard} {start finish : Pos}
    {p : CheckerPiece} (hs : inBounds start)
    (hp : get_piece b start = some p)
    (hm : finish ∈ (get_valid_moves b p start).moves) :
    (move_piece b start finish).1 = true ∧
    get_piece (move_piece b start finish).2 start = none ∧
    get_piece (move_piece b start finish).2 finish =
      some (if p.isKing = false ∧
          ((p.color = Color.white ∧ finish.1 = 0) ∨
            (p.color = Color.black ∧ finish.1 = 7)) then
        (⟨p.color, true⟩ : CheckerPiece) else p) ∧
    population (move_piece b start finish).2 = population b := by
  obtain ⟨hfin, hfe⟩ := (get_valid_moves_bounds b p start).1 finish hm
  have hrow := moves_row_dist hm
  have hne : start ≠ finish := by
    intro h
    rcases hrow with h1 | h1 <;> rw [← h] at h1 <;> omega
  have hmv : move_piece b start finish =
      (true, check_promotion (set_cell (set_cell b finish (some p)) start
        none) finish) := by
    unfold move_piece
    simp only [hp]
    rw [if_pos hm]
  have hb1fin : get_piece (set_cell (set_cell b finish (some p)) start none)
      finish = some p := by
    rw [get_piece_set_cell_ne _ _ hs hfin (Ne.symm hne),
      get_piece_set_cell_same _ _ hfin]
  have hspec := check_promotion_spec hfin hb1fin
  rw [hmv]
  refine ⟨rfl, ?_, hspec.2.1, ?_⟩
  · rw [hspec.1 start hs hne, get_piece_set_cell_same _ _ hs]
  · rw [hspec.2.2]
    have e1 := population_set_cell b (some p) hfin
    have e2 := population_set_cell (set_cell b finish (some p))
      (none (α := CheckerPiece)) hs
    rw [hfe] at e1
    rw [get_piece_set_cell_ne _ _ hfin hs hne, hp] at e2
    simp at e1 e2 ⊢
    omega

/-- A validated jump: relocation, clearing of the jumped square
(`(start + end) // 2`), possible promotion, and exactly one piece fewer
on the board. -/
theorem move_piece_capture {b : CheckersBoard} {start finish : Pos}
    {p : CheckerPiece} (hs : inBounds start)
    (hp : get_piece b start = some p)
    (hm : finish ∈ (get_valid_moves b p start).captures) :
    (move_piece b start finish).1 = true ∧
    get_piece (move_piece b start finish).2 start = none ∧
    get_piece (move_piece b start finish).2
      (Int.fdiv (start.1 + finish.1) 2, Int.fdiv (start.2 + finish.2) 2) =
      none ∧
    get_piece (move_piece b start finish).2 finish =
      some (if p.isKing = false ∧
          ((p.color = Color.white ∧ finish.1 = 0) ∨
            (p.color = Color.black ∧ finish.1 = 7)) then
        (⟨p.color, true⟩ : CheckerPiece) else p) ∧
    population (move_piece b start finish).2 + 1 = population b := by
  have hcap := hm
  rw [get_valid_moves_captures] at hcap
  rcases regular_captures_shape hcap with ⟨d, hd, v, hmeq, hvic, hvc, hvin⟩
  obtain ⟨hd1, hd2⟩ := regular_directions_vals hd
  obtain ⟨hfin, hfe⟩ := (get_valid_moves_bounds b p start).2 finish hm
  have hrow := captures_row_dist hm
  have hne : start ≠ finish := by
    intro h
    rcases hrow with h1 | h1 <;> rw [← h] at h1 <;> omega
  have hnm : finish ∉ (get_valid_moves b p start).moves := by
    intro hmem
    rcases moves_row_dist hmem with h1 | h1 <;> rcases hrow with h2 | h2 <;>
      omega
  have hmid : ((Int.fdiv (start.1 + finish.1) 2,
      Int.fdiv (start.2 + finish.2) 2) : Pos) =
      ((start.1 + d.1, start.2 + d.2) : Pos) := by
    rw [hmeq]
    have hfst : start.1 + ((start.1 + 2 * d.1, start.2 + 2 * d.2) : Pos).1 =
        2 * (start.1 + d.1) := by
      have : ((start.1 + 2 * d.1, start.2 + 2 * d.2) : Pos).1 =
          start.1 + 2 * d.1 := rfl
      rw [this]
      ring
    have hsnd : start.2 + ((start.1 + 2 * d.1, start.2 + 2 * d.2) : Pos).2 =
        2 * (start.2 + d.2) := by
      have : ((start.1 + 2 * d.1, start.2 + 2 * d.2) : Pos).2 =
          start.2 + 2 * d.2 := rfl
      rw [this]
      ring
    rw [Prod.mk.injEq, hfst, hsnd]
    constructor <;> rw [Int.mul_fdiv_cancel_left _ (by norm_num)]
  have hmne_s : ((start.1 + d.1, start.2 + d.2) : Pos) ≠ start := by
    intro h
    rw [Prod.ext_iff] at h
    have h1 : start.1 + d.1 = start.1 := h.1
    omega
  have hmne_f : ((start.1 + d.1, start.2 + d.2) : Pos) ≠ finish := by
    intro h
    rw [hmeq, Prod.ext_iff] at h
    have h1 : start.1 + d.1 = start.1 + 2 * d.1 := h.1
    omega
  have hmin : inBounds ((start.1 + d.1, start.2 + d.2) : Pos) := hvin
  have hmv : move_piece b start finish =
      (true, check_promotion
        (set_cell (set_cell (set_cell b finish (some p)) start none)
          (Int.fdiv (start.1 + finish.1) 2, Int.fdiv (start.2 + finish.2) 2)
          none) finish) := by
    unfold move_piece
    simp only [hp]
    rw [if_neg hnm, if_pos hm]
  rw [hmv, hmid]
  have hb1fin : get_piece
      (set_cell (set_cell (set_cell b finish (some p)) start none)
        (start.1 + d.1, start.2 + d.2) none) finish = some p := by
    rw [get_piece_set_cell_ne _ _ hmin hfin (Ne.symm hmne_f)]
    rw [get_piece_set_cell_ne _ _ hs hfin (Ne.symm hne)]
    rw [get_piece_set_cell_same _ _ hfin]
  have hspec := check_promotion_spec hfin hb1fin
  refine ⟨rfl, ?_, ?_, hspec.2.1, ?_⟩
  · rw [hspec.1 start hs hne]
    rw [get_piece_set_cell_ne _ _ hmin hs (Ne.symm hmne_s)]
    rw [get_piece_set_cell_same _ _ hs]
  · rw [hspec.1 _ hmin hmne_f, get_piece_set_cell_same _ _ hmin]
  · rw [hspec.2.2]
    have e1 := population_set_cell b (some p) hfin
    have e2 := population_set_cell (set_cell b finish (some p))
      (none (α := CheckerPiece)) hs
    have e3 := population_set_cell
      (set_cell (set_cell b finish (some p)) start none)
      (none (α := CheckerPiece)) hmin
    rw [hfe] at e1
    rw [get_piece_set_cell_ne _ _ hfin hs hne, hp] at e2
    rw [get_piece_set_cell_ne _ _ hs hmin hmne_s,
      get_piece_set_cell_ne _ _ hfin hmin hmne_f, hvic] at e3
    simp at e1 e2 e3 ⊢
    omega

/-- C10: `CheckersBoard.move_piece` is atomic on failure — it returns
`False` with the grid untouched whenever the start square is empty or
the destination is in neither computed set — and returns `True` exactly
when a piece is present and the destination validates, in which case
the relocation (with capture clearing and promotion) has been
performed. -/
theorem c10_move_piece_atomic :
    ∀ (b : CheckersBoard) (start finish : Pos),
      ((move_piece b start finish).1 = false →
        (move_piece b start finish).2 = b) ∧
      ((move_piece b start finish).1 = true ↔
        ∃ p, get_piece b start = some p ∧
          (finish ∈ (get_valid_moves b p start).moves ∨
            finish ∈ (get_valid_moves b p start).captures)) ∧
      (∀ p, inBounds start → get_piece b start = some p →
        finish ∈ (get_valid_moves b p start).moves →
        get_piece (move_piece b start finish).2 start = none ∧
        get_piece (move_piece b start finish).2 finish =
          some (if p.isKing = false ∧
              ((p.color = Color.white ∧ finish.1 = 0) ∨
                (p.color = Color.black ∧ finish.1 = 7)) then
            (⟨p.color, true⟩ : CheckerPiece) else p) ∧
        population (move_piece b start finish).2 = population b) ∧
      (∀ p, inBounds start → get_piece b start = some p →
        finish ∈ (get_valid_moves b p start).captures →
        get_piece (move_piece b start finish).2 start = none ∧
        get_piece (move_piece b start finish).2
          (Int.fdiv (start.1 + finish.1) 2,
            Int.fdiv (start.2 + finish.2) 2) = none ∧
        population (move_piece b start finish).2 + 1 = population b) := by
  intro b start finish
  refine ⟨?_, ⟨?_, ?_⟩, ?_, ?_⟩
  · intro hf
    unfold move_piece at hf ⊢
    rcases hp : get_piece b start with _ | p
    · simp only [hp]
    · simp only [hp] at hf ⊢
      by_cases h1 : finish ∈ (get_valid_moves b p start).moves
      · rw [if_pos h1] at hf
        cases hf
      · rw [if_neg h1] at hf ⊢
        by_cases h2 : finish ∈ (get_valid_moves b p start).captures
        · rw [if_pos h2] at hf
          cases hf
        · rw [if_neg h2]
  · intro ht
    unfold move_piece at ht
    rcases hp : get_piece b start with _ | p
    · rw [hp] at ht
      cases ht
    · simp only [hp] at ht
      refine ⟨p, rfl, ?_⟩
      by_cases h1 : finish ∈ (get_valid_moves b p start).moves
      · exact Or.inl h1
      · rw [if_neg h1] at ht
        by_cases h2 : finish ∈ (get_valid_moves b p start).captures
        · exact Or.inr h2
        · rw [if_neg h2] at ht
          cases ht
  · rintro ⟨p, hp, hval⟩
    unfold move_piece
    simp only [hp]
    by_cases h1 : finish ∈ (get_valid_moves b p start).moves
    · rw [if_pos h1]
    · rw [if_neg h1]
      rcases hval with h' | h'
      · exact absurd h' h1
      · rw [if_pos h']
  · intro p hs hp hm
    have h := move_piece_simple hs hp hm
    exact ⟨h.2.1, h.2.2.1, h.2.2.2⟩
  · intro p hs hp hm
    have h := move_piece_capture hs hp hm
    exact ⟨h.2.1, h.2.2.1, h.2.2.2.2⟩

/-- Witness for `c10_move_piece_atomic`: the §8 jump scenario — after
the capture `(5,0) → (3,2)` the jumped square `(4,1)` is empty and one
piece is gone. -/
theorem c10_move_piece_atomic_witness :
    get_piece (move_piece jumpScenario (5, 0) (3, 2)).2 (4, 1) = none ∧
    population (move_piece jumpScenario (5, 0) (3, 2)).2 + 1 =
      population jumpScenario :=
  ⟨((c10_move_piece_atomic jumpScenario (5, 0) (3, 2)).2.2.2
      ⟨Color.white, false⟩ (by decide) (by decide) (by decide)).2.1,
    ((c10_move_piece_atomic jumpScenario (5, 0) (3, 2)).2.2.2
      ⟨Color.white, false⟩ (by decide) (by decide) (by decide)).2.2⟩

end Checkers

open Chess in
/-- C4: claimed for *every* position — but a white pawn parked on row 0
probes `grid[-1][…]`, which Python wraps around to row 7, and the black
rook found there makes the pawn return the off-board move `(-1, 1)`. -/
theorem c4_pawn_on_edge_returns_offboard_move :
    get_valid_moves 0 edgePawnBoard ⟨Kind.pawn, Color.white, false⟩ (0, 0)
        none = some [(-1, 1)] ∧
    ¬ inBounds (-1, 1) := by
  constructor
  · decide
  · decide

open Chess Checkers in
/-- C4 (amended): every candidate of the sliding pieces and the knight,
of a pawn whose own forward row is still on the board (no en-passant
record), of a king that has moved or stands on the standard column 4,
and of either checker kind, is an on-board square not occupied by a
same-color piece (checker candidates land only on empty squares). -/
theorem c4_piecerules_bounds :
    (∀ b c x y, ∀ m ∈ rook_moves b c x y, target_ok Piece.color b c m) ∧
    (∀ b c x y, ∀ m ∈ bishop_moves b c x y, target_ok Piece.color b c m) ∧
    (∀ b c x y, ∀ m ∈ queen_moves b c x y, target_ok Piece.color b c m) ∧
    (∀ b c x y, ∀ m ∈ knight_moves b c x y, target_ok Piece.color b c m) ∧
    (∀ b c x y, inBounds (x, y) →
      0 ≤ x + pawnDirection c → x + pawnDirection c < 8 →
      ∀ m ∈ pawn_moves b c x y none, target_ok Piece.color b c m) ∧
    (∀ (n : Nat) b c (hmv : Bool) x y lm ms, inBounds (x, y) →
      (hmv = true ∨ y = 4) →
      Chess.get_valid_moves n b ⟨Kind.king, c, hmv⟩ (x, y) lm = some ms →
      ∀ m ∈ ms, target_ok Piece.color b c m) ∧
    (∀ b p pos,
      (∀ m ∈ (Checkers.get_valid_moves b p pos).moves,
        inBounds m ∧ get_piece b m = none) ∧
      (∀ m ∈ (Checkers.get_valid_moves b p pos).captures,
        inBounds m ∧ get_piece b m = none)) :=
  ⟨rook_moves_ok, bishop_moves_ok, queen_moves_ok, knight_moves_ok,
    fun b c x y hin h1 h2 =>
      pawn_moves_ok b c x y hin.1 hin.2.1 hin.2.2.1 hin.2.2.2 ⟨h1, h2⟩,
    fun _ _ _ _ _ _ _ _ hin hyp h => get_valid_moves_king_bounds hin hyp h,
    fun b p pos => Checkers.get_valid_moves_bounds b p pos⟩

open Chess in
/-- Witness for `c4_piecerules_bounds`: the opening pawn step `e2–e3`
of the initial position. -/
theorem c4_piecerules_bounds_witness :
    target_ok Piece.color initial_board Color.white ((5 : Int), (4 : Int)) :=
  c4_piecerules_bounds.2.2.2.2.1 initial_board Color.white 6 4 (by decide)
    (by decide) (by decide) (5, 4) (by decide)

open Chess in
/-- C3: the one-step simulation of `filter_self_checks` moves only the
capturing pawn, leaving the en-passant victim in place; the victim can
therefore mask a discovered check that only materialises when
`execute_move` also removes it.  The thirteen-ply game `enPassantTrap`
from the initial position is accepted move by move by the session loop,
and after its final committed move (white's `e5xd6` en passant) the side
that just moved — white, the player before the recorded `current` —
stands in check. -/
theorem c3_en_passant_capture_leaves_mover_in_check :
    (run_session 1 initial_state enPassantTrap).map
      (fun s => (is_in_check 1 s.board Color.white, s.current)) =
      some (some true, Color.black) := by
  rfl

open Chess Checkers in
/-- C6: after a committed move the source square is empty and the
destination holds the moved (or promoted) piece, and the population
drops by exactly one iff a capture occurred — ordinary moves and
captures, kingside and queenside castling (population constant),
en-passant
(the extra victim square cleared, population one less), chess promotion,
and checkers simple moves and jumps. -/
theorem c6_move_execution_effects :
    (∀ (s : GState) f t p (ch : PromoChoice),
      get_piece s.board f = some p → inBounds f → inBounds t → f ≠ t →
      ¬(p.kind = Kind.king ∧ (f.2 - t.2).natAbs = 2) →
      ¬(p.kind = Kind.pawn ∧ t.2 ≠ f.2 ∧ get_piece s.board t = none) →
      ¬(p.kind = Kind.pawn ∧ (t.1 = 0 ∨ t.1 = 7)) →
      get_piece (execute_move s f t p ch).board f = none ∧
      get_piece (execute_move s f t p ch).board t =
        some { p with hasMoved := true } ∧
      population (execute_move s f t p ch).board +
        (if (get_piece s.board t).isSome then 1 else 0) =
        population s.board) ∧
    (∀ (s : GState) (x y : Int) p r (ch : PromoChoice),
      get_piece s.board (x, y) = some p → p.kind = Kind.king →
      inBounds (x, y) → inBounds (x, y + 2) → y + 2 ≠ 7 →
      get_piece s.board (x, 7) = some r →
      get_piece s.board (x, y + 1) = none →
      get_piece s.board (x, y + 2) = none →
      get_piece (execute_move s (x, y) (x, y + 2) p ch).board (x, y) = none ∧
      get_piece (execute_move s (x, y) (x, y + 2) p ch).board (x, y + 2) =
        some { p with hasMoved := true } ∧
      get_piece (execute_move s (x, y) (x, y + 2) p ch).board (x, 7) = none ∧
      get_piece (execute_move s (x, y) (x, y + 2) p ch).board (x, y + 1) =
        some r ∧
      population (execute_move s (x, y) (x, y + 2) p ch).board =
        population s.board) ∧
    (∀ (s : GState) (x y : Int) p r (ch : PromoChoice),
      get_piece s.board (x, y) = some p → p.kind = Kind.king →
      inBounds (x, y) → inBounds (x, y - 2) → y - 2 ≠ 0 →
      get_piece s.board (x, 0) = some r →
      get_piece s.board (x, y - 1) = none →
      get_piece s.board (x, y - 2) = none →
      get_piece (execute_move s (x, y) (x, y - 2) p ch).board (x, y) = none ∧
      get_piece (execute_move s (x, y) (x, y - 2) p ch).board (x, y - 2) =
        some { p with hasMoved := true } ∧
      get_piece (execute_move s (x, y) (x, y - 2) p ch).board (x, 0) = none ∧
      get_piece (execute_move s (x, y) (x, y - 2) p ch).board (x, y - 1) =
        some r ∧
      population (execute_move s (x, y) (x, y - 2) p ch).board =
        population s.board) ∧
    (∀ (s : GState) f t p victim (ch : PromoChoice),
      get_piece s.board f = some p → p.kind = Kind.pawn →
      inBounds f → inBounds t → t.2 ≠ f.2 → t.1 ≠ f.1 →
      get_piece s.board t = none → ¬(t.1 = 0 ∨ t.1 = 7) →
      get_piece s.board (f.1, t.2) = some victim →
      get_piece (execute_move s f t p ch).board f = none ∧
      get_piece (execute_move s f t p ch).board t =
        some { p with hasMoved := true } ∧
      get_piece (execute_move s f t p ch).board (f.1, t.2) = none ∧
      population (execute_move s f t p ch).board + 1 = population s.board) ∧
    (∀ (s : GState) f t p (ch : PromoChoice),
      get_piece s.board f = some p → p.kind = Kind.pawn →
      inBounds f → inBounds t → f ≠ t → (t.1 = 0 ∨ t.1 = 7) →
      (t.2 = f.2 ∨ get_piece s.board t ≠ none) →
      get_piece (execute_move s f t p ch).board f = none ∧
      get_piece (execute_move s f t p ch).board t =
        some ⟨ch.kind, s.current, false⟩ ∧
      population (execute_move s f t p ch).board +
        (if (get_piece s.board t).isSome then 1 else 0) =
        population s.board) ∧
    (∀ (b : CheckersBoard) start finish p,
      inBounds start → get_piece b start = some p →
      finish ∈ (Checkers.get_valid_moves b p start).moves →
      (Checkers.move_piece b start finish).1 = true ∧
      get_piece (Checkers.move_piece b start finish).2 start = none ∧
      get_piece (Checkers.move_piece b start finish).2 finish =
        some (if p.isKing = false ∧
            ((p.color = Color.white ∧ finish.1 = 0) ∨
              (p.color = Color.black ∧ finish.1 = 7)) then
          (⟨p.color, true⟩ : CheckerPiece) else p) ∧
      population (Checkers.move_piece b start finish).2 = population b) ∧
    (∀ (b : CheckersBoard) start finish p,
      inBounds start → get_piece b start = some p →
      finish ∈ (Checkers.get_valid_moves b p start).captures →
      (Checkers.move_piece b start finish).1 = true ∧
      get_piece (Checkers.move_piece b start finish).2 start = none ∧
      get_piece (Checkers.move_piece b start finish).2
        (Int.fdiv (start.1 + finish.1) 2,
          Int.fdiv (start.2 + finish.2) 2) = none ∧
      get_piece (Checkers.move_piece b start finish).2 finish =
        some (if p.isKing = false ∧
            ((p.color = Color.white ∧ finish.1 = 0) ∨
              (p.color = Color.black ∧ finish.1 = 7)) then
          (⟨p.color, true⟩ : CheckerPiece) else p) ∧
      population (Checkers.move_piece b start finish).2 + 1 =
        population b) := by
  refine ⟨?_, ?_, ?_, ?_, ?_, ?_, ?_⟩
  · intro s f t p ch hp hf ht hne hnc hEP hPr
    rw [execute_move_board_plain hEP hPr]
    have h := move_piece_plain hp hf ht hne hnc
    exact ⟨h.1, h.2.1, h.2.2.1⟩
  · intro s x y p r ch hp hk hin hin2 h27 hr ht1 ht2
    rw [execute_move_board_not_pawn (by rw [hk]; intro h; cases h)]
    exact move_piece_castle_kingside hp hk hin hin2 h27 hr ht1 ht2
  · intro s x y p r ch hp hk hin hin2 h20 hr ht1 ht2
    rw [execute_move_board_not_pawn (by rw [hk]; intro h; cases h)]
    exact move_piece_castle_queenside hp hk hin hin2 h20 hr ht1 ht2
  · intro s f t p victim ch hp hpk hf ht hcol hrow hdest hnp hv
    exact execute_move_en_passant hp hpk hf ht hcol hrow hdest hnp hv
  · intro s f t p ch hp hpk hf ht hne hrank hEP
    exact execute_move_promotion hp hpk hf ht hne hrank hEP
  · intro b start finish p hs hp hm
    exact Checkers.move_piece_simple hs hp hm
  · intro b start finish p hs hp hm
    exact Checkers.move_piece_capture hs hp hm

open Chess Checkers in
/-- Witness for `c6_move_execution_effects`: the opening move `e2–e4`
(destination holds the moved pawn, source empty), a queenside castle
(rook relocated, population constant via the stated equation) and the
§8 checkers jump (one piece fewer). -/
theorem c6_move_execution_effects_witness :
    get_piece (execute_move initial_state (6, 4) (4, 4)
      ⟨Kind.pawn, Color.white, false⟩ PromoChoice.q).board (4, 4) =
      some ⟨Kind.pawn, Color.white, true⟩ ∧
    get_piece (execute_move initial_state (6, 4) (4, 4)
      ⟨Kind.pawn, Color.white, false⟩ PromoChoice.q).board (6, 4) = none ∧
    get_piece (execute_move
      (GState.mk (board_of [((7, 4), ⟨Kind.king, Color.white, false⟩),
        ((7, 0), ⟨Kind.rook, Color.white, false⟩)]) Color.white 0 none)
      (7, 4) (7, (4 : Int) - 2) ⟨Kind.king, Color.white, false⟩
      PromoChoice.q).board (7, (4 : Int) - 1) =
      some ⟨Kind.rook, Color.white, false⟩ ∧
    population (execute_move
      (GState.mk (board_of [((7, 4), ⟨Kind.king, Color.white, false⟩),
        ((7, 0), ⟨Kind.rook, Color.white, false⟩)]) Color.white 0 none)
      (7, 4) (7, (4 : Int) - 2) ⟨Kind.king, Color.white, false⟩
      PromoChoice.q).board =
      population (board_of [((7, 4), ⟨Kind.king, Color.white, false⟩),
        ((7, 0), ⟨Kind.rook, Color.white, false⟩)]) ∧
    population (Checkers.move_piece jumpScenario (5, 0) (3, 2)).2 + 1 =
      population jumpScenario :=
  ⟨(c6_move_execution_effects.1 initial_state (6, 4) (4, 4)
      ⟨Kind.pawn, Color.white, false⟩ PromoChoice.q (by decide) (by decide)
      (by decide) (by decide) (by decide) (by decide) (by decide)).2.1,
    (c6_move_execution_effects.1 initial_state (6, 4) (4, 4)
      ⟨Kind.pawn, Color.white, false⟩ PromoChoice.q (by decide) (by decide)
      (by decide) (by decide) (by decide) (by decide) (by decide)).1,
    (c6_move_execution_effects.2.2.1
      (GState.mk (board_of [((7, 4), ⟨Kind.king, Color.white, false⟩),
        ((7, 0), ⟨Kind.rook, Color.white, false⟩)]) Color.white 0 none)
      7 4 ⟨Kind.king, Color.white, false⟩ ⟨Kind.rook, Color.white, false⟩
      PromoChoice.q (by decide) (by decide) (by decide) (by decide)
      (by decide) (by decide) (by decide) (by decide)).2.2.2.1,
    (c6_move_execution_effects.2.2.1
      (GState.mk (board_of [((7, 4), ⟨Kind.king, Color.white, false⟩),
        ((7, 0), ⟨Kind.rook, Color.white, false⟩)]) Color.white 0 none)
      7 4 ⟨Kind.king, Color.white, false⟩ ⟨Kind.rook, Color.white, false⟩
      PromoChoice.q (by decide) (by decide) (by decide) (by decide)
      (by decide) (by decide) (by decide) (by decide)).2.2.2.2,
    (c6_move_execution_effects.2.2.2.2.2.2 jumpScenario (5, 0) (3, 2)
      ⟨Color.white, false⟩ (by decide) (by decide) (by decide)).2.2.2.2⟩

open Chess Checkers in
/-- C5: the spec (and the class's own docstring) promises multi-square
diagonal travel and captures in all four directions for a crowned
checker — the code only appends four *single-step* moves and inherits
the man's forward-only jumps.  A lone white king at `(4,4)` with the
whole diagonal empty cannot reach `(2,2)` or `(6,6)`, and a king at
`(3,3)` cannot jump the black man behind it at `(4,4)` even though
`(5,5)` is free. -/
theorem c5_king_checker_has_no_sliding_moves :
    get_piece (cboard_of [((4, 4), ⟨Color.white, true⟩)]) ((3, 3) : Pos) =
      none ∧
    (Checkers.get_valid_moves (cboard_of [((4, 4), ⟨Color.white, true⟩)])
      ⟨Color.white, true⟩ (4, 4)).moves =
      [(3, 3), (3, 5), (3, 3), (3, 5), (5, 3), (5, 5)] ∧
    ((2, 2) : Pos) ∉
      (Checkers.get_valid_moves (cboard_of [((4, 4), ⟨Color.white, true⟩)])
        ⟨Color.white, true⟩ (4, 4)).moves ∧
    ((6, 6) : Pos) ∉
      (Checkers.get_valid_moves (cboard_of [((4, 4), ⟨Color.white, true⟩)])
        ⟨Color.white, true⟩ (4, 4)).moves ∧
    (Checkers.get_valid_moves (cboard_of [((4, 4), ⟨Color.white, true⟩)])
      ⟨Color.white, true⟩ (4, 4)).captures = [] ∧
    get_piece (cboard_of [((3, 3), ⟨Color.white, true⟩),
      ((4, 4), ⟨Color.black, false⟩)]) ((4, 4) : Pos) =
      some ⟨Color.black, false⟩ ∧
    get_piece (cboard_of [((3, 3), ⟨Color.white, true⟩),
      ((4, 4), ⟨Color.black, false⟩)]) ((5, 5) : Pos) = none ∧
    (Checkers.get_valid_moves (cboard_of [((3, 3), ⟨Color.white, true⟩),
      ((4, 4), ⟨Color.black, false⟩)]) ⟨Color.white, true⟩ (3, 3)).captures =
      [] := by
  refine ⟨?_, ?_, ?_, ?_, ?_, ?_, ?_, ?_⟩ <;> decide

open Chess Checkers in
/-- C8: the checkers parser performs *no* range check — `"9 9"` and
`"-1 -1"` are returned as coordinate pairs outside the board instead of
absence (they then index `grid[9]` / wrap to `grid[7]` in the caller). -/
theorem c8_checkers_parser_returns_out_of_range :
    Checkers.parse_input "9 9" = some (9, 9) ∧
    Checkers.parse_input "-1 -1" = some (-1, -1) ∧
    ¬ inBounds (9, 9) := by
  refine ⟨by rfl, by rfl, by decide⟩

open Chess Checkers in
/-- C8 (amended): the chess square reader only ever returns in-range
squares; the checkers parser returns absence exactly when the input is
not two integer tokens, and passes the parsed integers through with no
range check.  Neither raises: both are total. -/
theorem c8_parser_characterization :
    (∀ (s : String) (x y : Int), get_position_attempt s = some (x, y) →
      0 ≤ x ∧ x < 8 ∧ 0 ≤ y ∧ y < 8) ∧
    (∀ s : String, (Checkers.parse_input s).isSome = true ↔
      (match split_tokens [] s.data with
        | [a, b] => (parse_int_token a).isSome = true ∧
            (parse_int_token b).isSome = true
        | _ => False)) := by
  constructor
  · intro s x y h
    unfold get_position_attempt at h
    rcases hl : strip_lower s.data with _ | ⟨c, _ | ⟨r, _ | ⟨d, rest⟩⟩⟩ <;>
      simp only [hl] at h
    · cases h
    · cases h
    · by_cases h1 : c.isAlpha ∧ r.isDigit
      · rw [if_pos h1] at h
        by_cases h2 : 0 ≤ 8 - Int.ofNat (r.toNat - Char.toNat '0') ∧
            8 - Int.ofNat (r.toNat - Char.toNat '0') < 8 ∧
            0 ≤ Int.ofNat c.toNat - Int.ofNat (Char.toNat 'a') ∧
            Int.ofNat c.toNat - Int.ofNat (Char.toNat 'a') < 8
        · rw [if_pos h2] at h
          rcases h with ⟨rfl, rfl⟩
          exact h2
        · rw [if_neg h2] at h
          cases h
      · rw [if_neg h1] at h
        cases h
    · cases h
  · intro s
    unfold Checkers.parse_input
    rcases hl : split_tokens [] s.data
      with _ | ⟨a, _ | ⟨b, _ | ⟨c, rest⟩⟩⟩ <;> simp only [hl]
    · simp
    · simp
    · rcases ha : parse_int_token a with _ | va <;>
        rcases hb : parse_int_token b with _ | vb <;>
          simp [ha, hb]
    · simp

open Chess in
/-- Witness for `c8_parser_characterization`: the reader accepts `a2`
as `(6, 0)` and the bounds follow. -/
theorem c8_parser_characterization_witness :
    (0 : Int) ≤ 6 ∧ (6 : Int) < 8 ∧ (0 : Int) ≤ 0 ∧ (0 : Int) < 8 :=
  c8_parser_characterization.1 "a2" 6 0 (by rfl)

namespace HeapModel

open Chess

/-- The copy loop only appends to the heap: existing cells are
unchanged. -/
theorem copy_cells_heap_get (src : RefGrid) :
    ∀ (l : List (Fin 8 × Fin 8)) (h : Heap) (acc : RefGrid) (r : Nat),
      r < h.length → (copy_cells src h acc l).1.get? r = h.get? r := by
  intro l
  induction l with
  | nil =>
    intro h acc r hr
    rfl
  | cons cell rest ih =>
    intro h acc r hr
    obtain ⟨i, j⟩ := cell
    unfold copy_cells
    split
    · exact ih h acc r hr
    · split
      · exact ih h acc r hr
      · rename_i rr hs p hh
        have hlen : r < (h ++ [p]).length := by
          rw [List.length_append]
          omega
        rw [ih (h ++ [p]) _ r hlen]
        exact List.get?_append hr

/-- The copy loop never shrinks the heap. -/
theorem copy_cells_heap_length (src : RefGrid) :
    ∀ (l : List (Fin 8 × Fin 8)) (h : Heap) (acc : RefGrid),
      h.length ≤ (copy_cells src h acc l).1.length := by
  intro l
  induction l with
  | nil =>
    intro h acc
    exact le_refl _
  | cons cell rest ih =>
    intro h acc
    obtain ⟨i, j⟩ := cell
    unfold copy_cells
    split
    · exact ih h acc
    · split
      · exact ih h acc
      · rename_i rr hs p hh
        have := ih (h ++ [p])
          (fun i' j' => if i' = i ∧ j' = j then some h.length else acc i' j')
        rw [List.length_append] at this
        exact le_trans (by omega) this

/-- Every reference the copy loop writes into the fresh grid is at or
beyond the heap length it started from. -/
theorem copy_cells_grid_refs (src : RefGrid) :
    ∀ (l : List (Fin 8 × Fin 8)) (h : Heap) (acc : RefGrid) (n0 : Nat),
      n0 ≤ h.length → (∀ i j r, acc i j = some r → n0 ≤ r) →
      ∀ i j r, (copy_cells src h acc l).2 i j = some r → n0 ≤ r := by
  intro l
  induction l with
  | nil =>
    intro h acc n0 _ hacc i j r hr
    exact hacc i j r hr
  | cons cell rest ih =>
    intro h acc n0 hn0 hacc i j r hr
    obtain ⟨i0, j0⟩ := cell
    unfold copy_cells at hr
    split at hr
    · exact ih h acc n0 hn0 hacc i j r hr
    · split at hr
      · exact ih h acc n0 hn0 hacc i j r hr
      · rename_i rr hs p hh
        refine ih (h ++ [p]) _ n0 (by rw [List.length_append]; omega)
          ?_ i j r hr
        intro i' j' r' hr'
        by_cases hc : i' = i0 ∧ j' = j0
        · rw [if_pos hc] at hr'
          cases hr'
          omega
        · rw [if_neg hc] at hr'
          exact hacc i' j' r' hr'

theorem get_piece_grid_exists {g : RefGrid} {q : Pos} {r : Ref}
    (h : get_piece g q = some r) : ∃ i j, g i j = some r := by
  unfold get_piece at h
  by_cases hb : -8 ≤ q.1 ∧ q.1 < 8 ∧ -8 ≤ q.2 ∧ q.2 < 8
  · rw [if_pos hb] at h
    exact ⟨_, _, h⟩
  · rw [if_neg hb] at h
    cases h

/-- `move_piece_heap` writes the heap only at the reference of the
moved piece; with all grid references at or beyond `n0`, every heap
cell below `n0` is untouched. -/
theorem move_piece_heap_get {h : Heap} {g : RefGrid} {f t : Pos} {n0 : Nat}
    (hg : ∀ i j r, g i j = some r → n0 ≤ r) :
    ∀ r' < n0, (move_piece_heap h g f t).1.get? r' = h.get? r' := by
  intro r' hr'
  unfold move_piece_heap
  split
  · rfl
  · split
    · rfl
    · rename_i r hq o p hh
      rcases get_piece_grid_exists hq with ⟨i, j, hij⟩
      have hge := hg i j r hij
      exact List.get?_set_ne _ _ (by omega)

theorem move_piece_heap_length (h : Heap) (g : RefGrid) (f t : Pos) :
    (move_piece_heap h g f t).1.length = h.length := by
  unfold move_piece_heap
  split
  · rfl
  · split
    · rfl
    · exact List.length_set _ _ _

/-- One simulation step keeps every heap cell of the original prefix. -/
theorem sim_step_get (g : RefGrid) (f mv : Pos) (h : Heap) :
    ∀ r < h.length, (sim_step g f mv h).1.get? r = h.get? r := by
  intro r hr
  unfold sim_step
  have refs : ∀ i j r', (board_copy h g).2 i j = some r' → h.length ≤ r' :=
    copy_cells_grid_refs g allCells h _ h.length (le_refl _)
      (fun _ _ _ hr' => by cases hr')
  rw [move_piece_heap_get refs r hr]
  exact copy_cells_heap_get g allCells h _ r hr

theorem sim_step_length (g : RefGrid) (f mv : Pos) (h : Heap) :
    h.length ≤ (sim_step g f mv h).1.length := by
  unfold sim_step
  rw [move_piece_heap_length]
  exact copy_cells_heap_length g allCells h _

/-- The frame property of the simulation loop: whatever it allocates
and mutates lives beyond the original heap prefix. -/
theorem filter_heap_frame (m : Nat) (g : RefGrid) (cur : Color) (f : Pos)
    (n0 : Nat) :
    ∀ (moves : List Pos) (h : Heap), n0 ≤ h.length →
      ∀ res, filter_self_checks_heap m g cur f h moves = some res →
        (∀ r < n0, res.1.get? r = h.get? r) ∧ n0 ≤ res.1.length := by
  intro moves
  induction moves with
  | nil =>
    intro h hlen res hres
    cases hres
    exact ⟨fun _ _ => rfl, hlen⟩
  | cons mv rest ih =>
    intro h hlen res hres
    have hstep : ∀ res',
        filter_self_checks_heap m g cur f (sim_step g f mv h).1 rest =
          some res' →
        (∀ r < n0, res'.1.get? r = h.get? r) ∧ n0 ≤ res'.1.length := by
      intro res' hres'
      have hlen' : n0 ≤ (sim_step g f mv h).1.length :=
        le_trans hlen (sim_step_length g f mv h)
      have := ih (sim_step g f mv h).1 hlen' res' hres'
      refine ⟨fun r hr => ?_, this.2⟩
      rw [this.1 r hr, sim_step_get g f mv h r (by omega)]
    unfold filter_self_checks_heap at hres
    split at hres
    · cases hres
    · exact hstep res hres
    · split at hres
      · cases hres
      · rename_i h' kept hrec
        cases hres
        exact hstep (h', kept) hrec

/-- C9: running the legality filter returns a heap that agrees with the
original on every piece the original board references — the simulation
mutates only the deep copies — so the original board denotes the same
position afterwards, every piece keeping its kind, color and
`has_moved` flag. -/
theorem c9_filter_self_checks_no_mutation :
    ∀ (m : Nat) (g : RefGrid) (cur : Color) (f : Pos) (moves : List Pos)
      (h : Heap) res,
      (∀ i j r, g i j = some r → r < h.length) →
      filter_self_checks_heap m g cur f h moves = some res →
      (∀ r, r < h.length → res.1.get? r = h.get? r) ∧
      toBoard res.1 g = toBoard h g := by
  intro m g cur f moves h res hg hres
  have hframe := filter_heap_frame m g cur f h.length moves h (le_refl _)
    res hres
  refine ⟨fun r hr => hframe.1 r hr, ?_⟩
  funext i j
  unfold toBoard
  rcases hij : g i j with _ | r
  · rfl
  · exact hframe.1 r (hg i j r hij)

/-- Witness for `c9_filter_self_checks_no_mutation`: simulating the
rook move `(0,0) → (0,1)` on the one-piece fixture leaves the original
rook object unmoved (`has_moved` still `False`). -/
theorem c9_filter_self_checks_no_mutation_witness :
    ([⟨Kind.rook, Color.white, false⟩,
      ⟨Kind.rook, Color.white, true⟩] : Heap).get? 0 = demoHeap.get? 0 :=
  (c9_filter_self_checks_no_mutation 1 demoGrid Color.white (0, 0)
    [((0 : Int), (1 : Int))] demoHeap
    ([⟨Kind.rook, Color.white, false⟩, ⟨Kind.rook, Color.white, true⟩],
      [((0 : Int), (1 : Int))])
    (fun i j r hr => by
      unfold demoGrid at hr
      by_cases hc : i.val = 0 ∧ j.val = 0
      · rw [if_pos hc] at hr
        cases hr
        decide
      · rw [if_neg hc] at hr
        cases hr)
    (by rfl)).1 0 (by decide)

end HeapModel
